import Mathlib

/-!
# Hamming number calculator

A shallow embedding of `hamming_calculator.cpp`: the `HammingNumber` exponent
triple with its operators, and the three solvers of `HammingCalculator`
(`Solve_Naive`, `Solve_Neat_Hamming`, `Solve_Neater_Hamming`).

Modelling conventions.

* `_intType` is `unsigned long long`: values are naturals below `2 ^ 64` and
  every increment, subtraction and product of the source is taken modulo
  `2 ^ 64` (`wrap`, `wsub`).
* `std::vector` and `std::deque` are lists; an indexed read returns `none`
  when the index is outside the container (undefined behaviour in the source).
* `std::priority_queue<_, _, greater<_>>` is the list of its elements: `top`
  is the least element and `pop` removes one occurrence of it.
* `std::set` is the list of the elements inserted so far.
* Loops are structural recursions on a fuel argument that re-test the loop
  condition of the source at every iteration; `none` is also returned when the
  fuel runs out before the condition turns false.
* `double` is IEEE 754 binary64 with rounding to nearest, ties to even, each operation
  rounded on its own. Every value that `HammingNumber::log` computes is a non-negative
  multiple of `2 ^ -53`, and is held as the natural number of such units (`rnd53`).
* `HammingNumber::operator<` is `HammingNumber.ltDouble`. The solvers are embedded over
  an arbitrary comparison `less`; `HammingNumber.lt` is the comparison of the exact
  magnitudes, for the statements that read `operator<` that way.
* Memory is unbounded: `res.reserve` and allocation failures are not modelled, nor are
  console output and timing.
-/

namespace Hamming

/-! ## Machine integers -/

/-- Number of values of `_intType` (`unsigned long long`). -/
abbrev W : Nat := 18446744073709551616

/-- Reduction of a natural number to `_intType`. -/
def wrap (n : Nat) : Nat := n % W

/-- Subtraction `a - b` of two `_intType` values. -/
def wsub (a b : Nat) : Nat := (a + W - b) % W

/-! ## Double precision -/

/-- Rounding of `n` to a multiple of `2 ^ s`, to nearest, ties to the even multiple. -/
def roundAt (s n : Nat) : Nat :=
  let d := 2 ^ s
  let m := n / d
  let rem := n % d
  if 2 * rem < d then m * d
  else if d < 2 * rem then (m + 1) * d
  else if m % 2 = 0 then m * d else (m + 1) * d

/-- The least `s' ≥ s` with `n / 2 ^ s' < 2 ^ 53`, searched upwards with fuel: the number
of low bits of `n` beyond its 53 leading ones. -/
def shift53 : Nat → Nat → Nat → Nat
  | 0, _, s => s
  | fuel + 1, n, s => if n / 2 ^ s < 2 ^ 53 then s else shift53 fuel n (s + 1)

/-- Rounding to binary64 (53 significant bits, to nearest, ties to even) of a
non-negative value given as a whole number `n` of units; the result is in the same units.
With the unit 1 it is the conversion of an `_intType` to `double`; with the unit `2 ^ -53`
it is the rounding of an exact product or sum of the values in `HammingNumber::log`. -/
def rnd53 (n : Nat) : Nat := roundAt (shift53 n n 0) n

/-- The member `ln2 = 0.69314718055994530941` as a `double`, in units of `2 ^ -53`. -/
def ln2 : Nat := 6243314768165359

/-- The member `ln3 = 1.09861228866810969139` as a `double`, in units of `2 ^ -53`. -/
def ln3 : Nat := 9895419787740694

/-- The member `ln5 = 1.60943791243410037460` as a `double`, in units of `2 ^ -53`. -/
def ln5 : Nat := 14496527965428326

/-! ## `HammingNumber` -/

/-- The class `HammingNumber`: the exponents `p`, `q`, `r` of 2, 3 and 5. -/
structure HammingNumber where
  p : Nat
  q : Nat
  r : Nat
deriving DecidableEq

namespace HammingNumber

/-- The default constructor `HammingNumber() : p(0), q(0), r(0)`. -/
def one : HammingNumber := ⟨0, 0, 0⟩

/-- The magnitude `2^p * 3^q * 5^r` that the triple stands for (what
`operator<<` prints, over the integers). -/
def value (u : HammingNumber) : Nat := 2 ^ u.p * 3 ^ u.q * 5 ^ u.r

/-- The source's `operator*(HammingNumber u, int fact)`: three independent tests, each
incrementing one `_intType` exponent. -/
def mul (u : HammingNumber) (fact : Int) : HammingNumber :=
  let u1 : HammingNumber := if fact = 2 then { u with p := wrap (u.p + 1) } else u
  let u2 : HammingNumber := if fact = 3 then { u1 with q := wrap (u1.q + 1) } else u1
  let u3 : HammingNumber := if fact = 5 then { u2 with r := wrap (u2.r + 1) } else u2
  u3

/-- The source's `operator==`: the three exponents are compared. -/
def eq (l r : HammingNumber) : Bool := l.p == r.p && l.q == r.q && l.r == r.r

/-- The method `log`: `ln2 * p + ln3 * q + ln5 * r` in `double`, in units of `2 ^ -53`.
Each exponent is converted to `double`, each product and each of the two sums, taken
from the left, is rounded. -/
def log (u : HammingNumber) : Nat :=
  rnd53 (rnd53 (rnd53 (ln2 * rnd53 u.p) + rnd53 (ln3 * rnd53 u.q)) + rnd53 (ln5 * rnd53 u.r))

/-- The source's `operator<`: `l.log() < r.log()`. -/
def ltDouble (l r : HammingNumber) : Bool := decide (l.log < r.log)

/-- The comparison of the exact magnitudes: what `operator<` is when `ln2*p + ln3*q + ln5*r`
is read in exact arithmetic with the exact logarithms. -/
def lt (l r : HammingNumber) : Bool := decide (l.value < r.value)

/-- Every exponent is an `_intType` value. -/
def InRange (u : HammingNumber) : Prop := u.p < W ∧ u.q < W ∧ u.r < W

instance (u : HammingNumber) : Decidable u.InRange := by
  unfold InRange; infer_instance

end HammingNumber

open HammingNumber

/-- The call `std::min(a, b)` over a comparison `less`: `(b < a) ? b : a`. -/
def hmin (less : HammingNumber → HammingNumber → Bool) (a b : HammingNumber) : HammingNumber :=
  if less b a then b else a

/-! ## `Solve_Neat_Hamming` -/

/-- Local variables of `Solve_Neat_Hamming` that live across iterations. -/
structure NeatState where
  res : List HammingNumber
  p : Nat
  q : Nat
  r : Nat
  next2 : HammingNumber
  next3 : HammingNumber
  next5 : HammingNumber
deriving DecidableEq

/-- State of `Solve_Neat_Hamming` on entry to the loop. -/
def neatInit : NeatState := ⟨[one], 0, 0, 0, one, one, one⟩

/-- One statement `if (next == nextK) nextK = res[++ptr] * fact;` reading the
container through `read`; returns the new pointer and candidate. -/
def advance (read : Nat → Option HammingNumber) (next cand : HammingNumber) (ptr : Nat)
    (fact : Int) : Option (Nat × HammingNumber) :=
  if next.eq cand then
    (read (wrap (ptr + 1))).map (fun h => (wrap (ptr + 1), h.mul fact))
  else some (ptr, cand)

/-- The statement `next = std::min(next2, std::min(next3, next5))` of `Solve_Neat_Hamming`. -/
def neatNext (less : HammingNumber → HammingNumber → Bool) (s : NeatState) : HammingNumber :=
  hmin less s.next2 (hmin less s.next3 s.next5)

/-- One iteration of the loop of `Solve_Neat_Hamming`. -/
def neatStep (less : HammingNumber → HammingNumber → Bool) (s : NeatState) : Option NeatState :=
  let next := neatNext less s
  let res := s.res ++ [next]
  (advance (fun i => res[i]?) next s.next2 s.p 2).bind fun a2 =>
  (advance (fun i => res[i]?) next s.next3 s.q 3).bind fun a3 =>
  (advance (fun i => res[i]?) next s.next5 s.r 5).bind fun a5 =>
  some ⟨res, a2.1, a3.1, a5.1, a2.2, a3.2, a5.2⟩

/-- The loop `while (res.size() < size_t(_targetNumber) + 1)`. -/
def neatLoop (less : HammingNumber → HammingNumber → Bool) (target : Nat) :
    Nat → NeatState → Option NeatState
  | 0, s => if s.res.length < wrap (target + 1) then none else some s
  | fuel + 1, s =>
    if s.res.length < wrap (target + 1) then (neatStep less s).bind (neatLoop less target fuel)
    else some s

/-- The value `res[_targetNumber]` that `Solve_Neat_Hamming` stores. -/
def neatResult (less : HammingNumber → HammingNumber → Bool) (target : Nat) :
    Option HammingNumber :=
  (neatLoop less target target neatInit).bind fun s => s.res[target]?

/-! ## `Solve_Neater_Hamming` -/

/-- Local variables of `Solve_Neater_Hamming` that live across iterations. -/
structure NeaterState where
  res : List HammingNumber
  offset : Nat
  p : Nat
  q : Nat
  r : Nat
  next2 : HammingNumber
  next3 : HammingNumber
  next5 : HammingNumber
deriving DecidableEq

/-- State of `Solve_Neater_Hamming` on entry to the loop. -/
def neaterInit : NeaterState := ⟨[one], 0, 0, 0, 0, one, one, one⟩

/-- The statement `next = std::min(next2, std::min(next3, next5))` of
`Solve_Neater_Hamming`. -/
def neaterNext (less : HammingNumber → HammingNumber → Bool) (s : NeaterState) :
    HammingNumber :=
  hmin less s.next2 (hmin less s.next3 s.next5)

/-- One iteration of the loop of `Solve_Neater_Hamming`. -/
def neaterStep (less : HammingNumber → HammingNumber → Bool) (s : NeaterState) :
    Option NeaterState :=
  let next := neaterNext less s
  let res := s.res ++ [next]
  (advance (fun i => res[wsub i s.offset]?) next s.next2 s.p 2).bind fun a2 =>
  (advance (fun i => res[wsub i s.offset]?) next s.next3 s.q 3).bind fun a3 =>
  (advance (fun i => res[wsub i s.offset]?) next s.next5 s.r 5).bind fun a5 =>
  let m := min a2.1 (min a3.1 a5.1)
  if s.offset < m then
    some ⟨res.tail, wrap (s.offset + 1), a2.1, a3.1, a5.1, a2.2, a3.2, a5.2⟩
  else
    some ⟨res, s.offset, a2.1, a3.1, a5.1, a2.2, a3.2, a5.2⟩

/-- The loop `while (res.size() < size_t(_targetNumber) - offset + 1)`. -/
def neaterLoop (less : HammingNumber → HammingNumber → Bool) (target : Nat) :
    Nat → NeaterState → Option NeaterState
  | 0, s => if s.res.length < wrap (wsub target s.offset + 1) then none else some s
  | fuel + 1, s =>
    if s.res.length < wrap (wsub target s.offset + 1) then
      (neaterStep less s).bind (neaterLoop less target fuel)
    else some s

/-- The value `res[_targetNumber - offset]` that `Solve_Neater_Hamming` stores. -/
def neaterResult (less : HammingNumber → HammingNumber → Bool) (target : Nat) :
    Option HammingNumber :=
  (neaterLoop less target target neaterInit).bind fun s => s.res[wsub target s.offset]?

/-! ## `Solve_Naive` -/

/-- The member `naiveLimit`. -/
def naiveLimit : Nat := 10000

/-- The member `_multipliers`. -/
def multipliers : List Nat := [2, 3, 5]

/-- The call `_PQ.top()` on a min-ordered priority queue: its least element; `none` on an
empty queue. -/
def pqTop : List Nat → Option Nat
  | [] => none
  | x :: xs => some (xs.foldl min x)

/-- Local variables of `Solve_Naive` that live across iterations, and the
member `_resultInt` the loop writes. -/
structure NaiveState where
  pq : List Nat
  tracer : List Nat
  cntr : Nat
  resultInt : Nat
deriving DecidableEq

/-- Body of the `for` loop over `_multipliers` for one multiplier `it`:
`candidate = it * _resultInt` reduced by `red`, pushed and recorded unless already
in `_tracer`. The source computes in `_intType`, that is `red = wrap`. -/
def naivePush (red : Nat → Nat) (resultInt : Nat) (st : List Nat × List Nat) (it : Nat) :
    List Nat × List Nat :=
  let candidate := red (it * resultInt)
  if candidate ∈ st.2 then st else (candidate :: st.1, candidate :: st.2)

/-- One iteration of the `while` loop of `Solve_Naive`. -/
def naiveStep (red : Nat → Nat) (s : NaiveState) : Option NaiveState :=
  match pqTop s.pq with
  | none => none
  | some m =>
    let st := multipliers.foldl (naivePush red m) (s.pq.erase m, s.tracer)
    some ⟨st.1, st.2, wrap (s.cntr + 1), m⟩

/-- The loop `while (cntr < _targetNumber)`. -/
def naiveLoop (red : Nat → Nat) (target : Nat) : Nat → NaiveState → Option NaiveState
  | 0, s => if s.cntr < target then none else some s
  | fuel + 1, s =>
    if s.cntr < target then (naiveStep red s).bind (naiveLoop red target fuel) else some s

/-- State of `Solve_Naive` on entry to the loop, `_resultInt` being what the object holds. -/
def naiveInit (resultInt : Nat) : NaiveState := ⟨[1], [1], 0, resultInt⟩

/-! ## `HammingCalculator` -/

/-- The data members of `HammingCalculator`. -/
structure HammingCalculator where
  _targetNumber : Nat
  _resultHamming : HammingNumber
  _resultInt : Nat
deriving DecidableEq

/-- What a call of `Solve_Naive` leaves: the object, and whether the `ERR:` line was
written and the call returned before any computation. -/
structure NaiveOutcome where
  obj : HammingCalculator
  refused : Bool
deriving DecidableEq

namespace HammingCalculator

/-- The constructor `HammingCalculator(_intType t)`. -/
def new (t : Nat) : HammingCalculator := ⟨t, HammingNumber.one, 1⟩

/-- The method `Solve_Naive`, over the reduction `red` of the products (`wrap` in the
source). -/
def Solve_Naive_with (red : Nat → Nat) (c : HammingCalculator) : Option NaiveOutcome :=
  if c._targetNumber > naiveLimit then some ⟨c, true⟩
  else
    (naiveLoop red c._targetNumber c._targetNumber (naiveInit c._resultInt)).map fun s =>
      ⟨{ c with _resultInt := s.resultInt }, false⟩

/-- The method `Solve_Naive`. -/
def Solve_Naive (c : HammingCalculator) : Option NaiveOutcome := Solve_Naive_with wrap c

/-- The method `Solve_Neat_Hamming`. -/
def Solve_Neat_Hamming (less : HammingNumber → HammingNumber → Bool) (c : HammingCalculator) :
    Option HammingCalculator :=
  (neatResult less c._targetNumber).map fun h => { c with _resultHamming := h }

/-- The method `Solve_Neater_Hamming`. -/
def Solve_Neater_Hamming (less : HammingNumber → HammingNumber → Bool)
    (c : HammingCalculator) : Option HammingCalculator :=
  (neaterResult less c._targetNumber).map fun h => { c with _resultHamming := h }

end HammingCalculator

/-! ## Hamming numbers -/

/-- A Hamming (5-smooth) number: a positive integer whose only prime factors are 2, 3
and 5. The sequence of Hamming numbers in increasing order, indexed from 0, is
`Nat.nth IsHamming`. -/
def IsHamming (m : Nat) : Prop :=
  0 < m ∧ ∀ p : Nat, p.Prime → p ∣ m → p = 2 ∨ p = 3 ∨ p = 5

/-! ## Invariants of the solvers -/

/-- All three exponents of `u` are at most `n`. -/
def ExpLe (u : HammingNumber) (n : Nat) : Prop := u.p ≤ n ∧ u.q ≤ n ∧ u.r ≤ n

/-- Bounds that hold in every state of the loop of `Solve_Neat_Hamming`, whatever the
comparison: the pointers index stored elements and no exponent exceeds the position of
its element. -/
structure NeatBounds (s : NeatState) : Prop where
  len_pos : 0 < s.res.length
  hp : s.p < s.res.length
  hq : s.q < s.res.length
  hr : s.r < s.res.length
  hres : ∀ i u, s.res[i]? = some u → ExpLe u i
  hn2 : ExpLe s.next2 s.res.length
  hn3 : ExpLe s.next3 s.res.length
  hn5 : ExpLe s.next5 s.res.length

/-- The windowed state `w` of `Solve_Neater_Hamming` stands for the dense state `d` of
`Solve_Neat_Hamming`: the deque is the stored sequence without its first `offset`
elements, no pointer is below `offset`, and pointers and candidates coincide. -/
structure Sim (d : NeatState) (w : NeaterState) : Prop where
  res : w.res = d.res.drop w.offset
  op : w.offset ≤ d.p
  oq : w.offset ≤ d.q
  or : w.offset ≤ d.r
  p : w.p = d.p
  q : w.q = d.q
  r : w.r = d.r
  next2 : w.next2 = d.next2
  next3 : w.next3 = d.next3
  next5 : w.next5 = d.next5

/-- The state of `Solve_Neat_Hamming` after at least one iteration, under the exact
comparison: `res` is `1` followed by the first `n + 1` Hamming numbers in increasing
order; the pointers are `P + 1`, `Q + 1`, `R + 1`; each candidate is its multiplier times
the Hamming number under its pointer, exceeds the last stored element, and every
multiple taken from below its pointer is already stored. -/
structure NeatExact (s : NeatState) (n P Q R : Nat) : Prop where
  len : s.res.length = n + 2
  head : s.res[0]? = some HammingNumber.one
  vals : ∀ i u, s.res[i + 1]? = some u → u.value = Nat.nth IsHamming i
  hp : s.p = P + 1
  hq : s.q = Q + 1
  hr : s.r = R + 1
  v2 : s.next2.value = 2 * Nat.nth IsHamming P
  v3 : s.next3.value = 3 * Nat.nth IsHamming Q
  v5 : s.next5.value = 5 * Nat.nth IsHamming R
  g2 : Nat.nth IsHamming n < 2 * Nat.nth IsHamming P
  g3 : Nat.nth IsHamming n < 3 * Nat.nth IsHamming Q
  g5 : Nat.nth IsHamming n < 5 * Nat.nth IsHamming R
  l2 : ∀ j, j < P → 2 * Nat.nth IsHamming j ≤ Nat.nth IsHamming n
  l3 : ∀ j, j < Q → 3 * Nat.nth IsHamming j ≤ Nat.nth IsHamming n
  l5 : ∀ j, j < R → 5 * Nat.nth IsHamming j ≤ Nat.nth IsHamming n

/-- The invariant of the loop of `Solve_Neat_Hamming` under the exact comparison: the
entry state, or a state described by `NeatExact`. -/
def NeatInv (s : NeatState) : Prop := s = neatInit ∨ ∃ n P Q R, NeatExact s n P Q R

/-- The greatest `_intType` value whose product with 5 does not wrap: `(2 ^ 64 - 1) / 5`. -/
def safeBound : Nat := 3689348814741910323

/-- Number of exponents `a < k` with `2 ^ a * x ≤ B`, by doubling `x` while it stays
at most `B`. -/
def twoCount (B x : Nat) : Nat → Nat
  | 0 => 0
  | k + 1 => if x ≤ B then twoCount B (2 * x) k + 1 else 0

/-- The magnitude `2 ^ a * 3 ^ b * 5 ^ c` of the exponents `(c, b, a)`. -/
def tripleValue (t : Nat × Nat × Nat) : Nat := 2 ^ t.2.2 * 3 ^ t.2.1 * 5 ^ t.1

/-- The exponent triples `(c, b, a)` with `c < 27`, `b < 40`, `a < 62` whose magnitude is
at most `safeBound`. -/
def smallTriples : Finset (Nat × Nat × Nat) :=
  (Finset.range 27 ×ˢ (Finset.range 40 ×ˢ Finset.range 62)).filter
    (fun t => tripleValue t ≤ safeBound)

/-- The invariant of the loop of `Solve_Naive` after `cntr` iterations: `_tracer` holds 1
and the multiples by 2, 3, 5 of the Hamming numbers of index below `cntr`; `_PQ` holds,
once each, the elements of `_tracer` not yet removed, which are those from the Hamming
number of index `cntr` on; `_resultInt` is the last element removed. -/
structure NaiveInv (s : NaiveState) : Prop where
  nodup : s.pq.Nodup
  tr : ∀ x, x ∈ s.tracer ↔
    x = 1 ∨ ∃ j, j < s.cntr ∧ (x = 2 * Nat.nth IsHamming j ∨ x = 3 * Nat.nth IsHamming j ∨
      x = 5 * Nat.nth IsHamming j)
  pq : ∀ x, x ∈ s.pq ↔ x ∈ s.tracer ∧ Nat.nth IsHamming s.cntr ≤ x
  res : 0 < s.cntr → s.resultInt = Nat.nth IsHamming (s.cntr - 1)

/-- The failure named in the specification of `multiply`. -/
inductive MulError where
  | InvalidMultiplier
deriving DecidableEq

/-- The contract `multiply(self, k)` in the words of the specification: the exponent for
`k ∈ {2, 3, 5}` incremented by one, and failure with `InvalidMultiplier` for any other `k`.
It is compared with the source's `operator*`, `HammingNumber.mul`. -/
def multiplySpec (u : HammingNumber) (k : Int) : Except MulError HammingNumber :=
  if k = 2 then .ok { u with p := u.p + 1 }
  else if k = 3 then .ok { u with q := u.q + 1 }
  else if k = 5 then .ok { u with r := u.r + 1 }
  else .error MulError.InvalidMultiplier

/-! ## The loops, iteration by iteration -/

/-- The state of `Solve_Neat_Hamming` at the head of its loop after `k` iterations: the entry
state for `k = 0`, and one more iteration when the loop condition of the source holds;
`none` once the loop has been left. -/
def neatIter (less : HammingNumber → HammingNumber → Bool) (target : Nat) :
    Nat → Option NeatState
  | 0 => some neatInit
  | k + 1 => (neatIter less target k).bind fun s =>
      if s.res.length < wrap (target + 1) then neatStep less s else none

/-- The state of `Solve_Neater_Hamming` at the head of its loop after `k` iterations. -/
def neaterIter (less : HammingNumber → HammingNumber → Bool) (target : Nat) :
    Nat → Option NeaterState
  | 0 => some neaterInit
  | k + 1 => (neaterIter less target k).bind fun s =>
      if s.res.length < wrap (wsub target s.offset + 1) then neaterStep less s else none

/-- The state of `Solve_Naive` at the head of its loop after `k` iterations, `resultInt`
being the value of `_resultInt` on entry. -/
def naiveIter (red : Nat → Nat) (target resultInt : Nat) : Nat → Option NaiveState
  | 0 => some (naiveInit resultInt)
  | k + 1 => (naiveIter red target resultInt k).bind fun s =>
      if s.cntr < target then naiveStep red s else none

/-! ## Agreement of the double-precision comparison with the magnitudes below `2 ^ 64` -/

/-- The weighted sum `ln2 * p + ln3 * q + ln5 * r` without any rounding, in units of
`2 ^ -53`. -/
def exactSum (u : HammingNumber) : Nat := ln2 * u.p + ln3 * u.q + ln5 * u.r

/-- A candidate for the least integer `a` with `2 ^ a * 3 ^ b * 5 ^ c > 1`, from
approximations of the binary logarithms of 3 and 5 scaled by `2 ^ 32`. -/
def gapGuess (b c : Int) : Int :=
  Int.fdiv (-(b * 6807362610 + c * 9972605231)) 4294967296 + 1

/-- The check for the exponent differences `b` of 3 and `c` of 5: with `t = gapGuess b c`,
`2 ^ (t - 1) * 3 ^ b * 5 ^ c ≤ 1`, and the unrounded sum for `(t, b, c)` exceeds 320
units. -/
def gapOk (b c : Int) : Bool :=
  decide (2 ^ (gapGuess b c - 1).toNat * 3 ^ b.toNat * 5 ^ c.toNat ≤
    2 ^ (1 - gapGuess b c).toNat * 3 ^ (-b).toNat * 5 ^ (-c).toNat) &&
  decide (320 < (ln2 : Int) * gapGuess b c + (ln3 : Int) * b + (ln5 : Int) * c)

/-- Conjunction of `f 0`, ..., `f (n - 1)`. -/
def allBelow (f : Nat → Bool) : Nat → Bool
  | 0 => true
  | n + 1 => f n && allBelow f n

/-- The check `gapOk` for every `-40 ≤ b ≤ 40` and `-27 ≤ c ≤ 27`. -/
def gapAll : Bool :=
  allBelow (fun i => allBelow (fun j => gapOk ((i : Int) - 40) ((j : Int) - 27)) 55) 81

/-! ## Two consecutive Hamming numbers that the double-precision comparison cannot tell apart -/

theorem value_pos (u : HammingNumber) : 0 < u.value := by
  unfold value; positivity

theorem factorization_value (u : HammingNumber) :
    u.value.factorization = Finsupp.single 2 u.p + Finsupp.single 3 u.q + Finsupp.single 5 u.r := by
  unfold value
  have h2 : (2 ^ u.p : Nat) ≠ 0 := by positivity
  have h3 : (3 ^ u.q : Nat) ≠ 0 := by positivity
  have h5 : (5 ^ u.r : Nat) ≠ 0 := by positivity
  rw [Nat.factorization_mul (Nat.mul_ne_zero h2 h3) h5, Nat.factorization_mul h2 h3,
    Nat.factorization_pow, Nat.factorization_pow, Nat.factorization_pow,
    Nat.prime_two.factorization, Nat.prime_three.factorization, Nat.prime_five.factorization]
  simp

theorem value_injective : Function.Injective value := by
  intro u v h
  have hf := congrArg Nat.factorization h
  rw [factorization_value, factorization_value] at hf
  have e2 := DFunLike.congr_fun hf 2
  have e3 := DFunLike.congr_fun hf 3
  have e5 := DFunLike.congr_fun hf 5
  simp at e2 e3 e5
  cases u; cases v; simp_all

theorem isHamming_value (u : HammingNumber) : IsHamming u.value := by
  refine ⟨value_pos u, fun p hp hd => ?_⟩
  unfold value at hd
  rcases (Nat.Prime.dvd_mul hp).1 hd with h | h
  · rcases (Nat.Prime.dvd_mul hp).1 h with h | h
    · left; exact (Nat.prime_dvd_prime_iff_eq hp Nat.prime_two).1 (hp.dvd_of_dvd_pow h)
    · right; left; exact (Nat.prime_dvd_prime_iff_eq hp Nat.prime_three).1 (hp.dvd_of_dvd_pow h)
  · right; right; exact (Nat.prime_dvd_prime_iff_eq hp Nat.prime_five).1 (hp.dvd_of_dvd_pow h)

theorem IsHamming.of_mul {c m : Nat} (h : IsHamming (c * m)) : IsHamming m := by
  refine ⟨Nat.pos_of_ne_zero fun h0 => by simp [h0] at h; exact absurd h.1 (by simp), fun p hp hd => h.2 p hp (Dvd.dvd.mul_left hd c)⟩

theorem IsHamming.pred {m : Nat} (h : IsHamming m) (h1 : 1 < m) :
    ∃ c m', (c = 2 ∨ c = 3 ∨ c = 5) ∧ IsHamming m' ∧ m = c * m' := by
  obtain ⟨p, hp, hd⟩ := Nat.exists_prime_and_dvd (Nat.ne_of_gt h1)
  obtain ⟨m', rfl⟩ := hd
  exact ⟨p, m', h.2 p hp (Dvd.intro _ rfl), h.of_mul, rfl⟩

theorem isHamming_iff (m : Nat) : IsHamming m ↔ ∃ u : HammingNumber, u.value = m := by
  constructor
  · intro h
    induction m using Nat.strong_induction_on with
    | _ m ih =>
      rcases Nat.lt_or_ge 1 m with h1 | h1
      · obtain ⟨c, m', hc, hm', rfl⟩ := h.pred h1
        have hlt : m' < c * m' := by
          have := hm'.1
          rcases hc with rfl | rfl | rfl <;> omega
        obtain ⟨u, hu⟩ := ih m' hlt hm'
        rcases hc with rfl | rfl | rfl
        · exact ⟨⟨u.p + 1, u.q, u.r⟩, by rw [← hu]; simp only [value]; ring⟩
        · exact ⟨⟨u.p, u.q + 1, u.r⟩, by rw [← hu]; simp only [value]; ring⟩
        · exact ⟨⟨u.p, u.q, u.r + 1⟩, by rw [← hu]; simp only [value]; ring⟩
      · have : m = 1 := by have := h.1; omega
        exact ⟨⟨0, 0, 0⟩, by subst this; rfl⟩
  · rintro ⟨u, rfl⟩; exact isHamming_value u

theorem isHamming_infinite : (setOf IsHamming).Infinite := by
  refine Set.infinite_of_injective_forall_mem (f := fun n : Nat => 2 ^ n) ?_ ?_
  · exact Nat.pow_right_injective (le_refl 2)
  · intro n
    have := isHamming_value ⟨n, 0, 0⟩
    simpa [value] using this

theorem IsHamming.times {c m : Nat} (hc : c = 2 ∨ c = 3 ∨ c = 5) (h : IsHamming m) :
    IsHamming (c * m) := by
  refine ⟨?_, fun p hp hd => ?_⟩
  · have := h.1
    rcases hc with rfl | rfl | rfl <;> omega
  · rcases (Nat.Prime.dvd_mul hp).1 hd with h' | h'
    · rcases hc with rfl | rfl | rfl
      · left; exact (Nat.prime_dvd_prime_iff_eq hp Nat.prime_two).1 h'
      · right; left; exact (Nat.prime_dvd_prime_iff_eq hp Nat.prime_three).1 h'
      · right; right; exact (Nat.prime_dvd_prime_iff_eq hp Nat.prime_five).1 h'
    · exact h.2 p hp h'

theorem isHamming_one : IsHamming 1 := isHamming_value ⟨0, 0, 0⟩

theorem not_isHamming_zero : ¬ IsHamming 0 := fun h => absurd h.1 (by simp)

theorem isHamming_nth (n : Nat) : IsHamming (Nat.nth IsHamming n) :=
  Nat.nth_mem_of_infinite isHamming_infinite n

theorem nth_lt_iff {k n : Nat} : Nat.nth IsHamming k < Nat.nth IsHamming n ↔ k < n :=
  Nat.nth_lt_nth isHamming_infinite

theorem nth_le_iff {k n : Nat} : Nat.nth IsHamming k ≤ Nat.nth IsHamming n ↔ k ≤ n :=
  Nat.nth_le_nth isHamming_infinite

theorem IsHamming.exists_index {t : Nat} (ht : IsHamming t) : ∃ j, Nat.nth IsHamming j = t := by
  classical
  exact ⟨Nat.count IsHamming t, Nat.nth_count ht⟩

theorem nth_zero_eq_one : Nat.nth IsHamming 0 = 1 := by
  classical
  have h := Nat.nth_count isHamming_one
  have h0 : Nat.count IsHamming 1 = 0 := by
    rw [Nat.count_one, if_neg not_isHamming_zero]
  rwa [h0] at h

theorem nth_pos (n : Nat) : 0 < Nat.nth IsHamming n := (isHamming_nth n).1

theorem nth_succ_le {n t : Nat} (ht : IsHamming t) (h : Nat.nth IsHamming n < t) :
    Nat.nth IsHamming (n + 1) ≤ t := by
  obtain ⟨j, rfl⟩ := ht.exists_index
  exact nth_le_iff.2 (nth_lt_iff.1 h)

/-- The three-pointer merge on the sequence of Hamming numbers: when the candidates
`2 * h P`, `3 * h Q`, `5 * h R` all exceed `h n` and every earlier multiple is at most
`h n`, the least candidate is `h (n + 1)`. -/
theorem merge_next (n P Q R : Nat)
    (h2 : Nat.nth IsHamming n < 2 * Nat.nth IsHamming P)
    (h3 : Nat.nth IsHamming n < 3 * Nat.nth IsHamming Q)
    (h5 : Nat.nth IsHamming n < 5 * Nat.nth IsHamming R)
    (l2 : ∀ j < P, 2 * Nat.nth IsHamming j ≤ Nat.nth IsHamming n)
    (l3 : ∀ j < Q, 3 * Nat.nth IsHamming j ≤ Nat.nth IsHamming n)
    (l5 : ∀ j < R, 5 * Nat.nth IsHamming j ≤ Nat.nth IsHamming n) :
    min (2 * Nat.nth IsHamming P) (min (3 * Nat.nth IsHamming Q) (5 * Nat.nth IsHamming R))
      = Nat.nth IsHamming (n + 1) := by
  apply le_antisymm
  · have hgt : 1 < Nat.nth IsHamming (n + 1) := by
      have : Nat.nth IsHamming 0 < Nat.nth IsHamming (n + 1) := nth_lt_iff.2 (by omega)
      rw [nth_zero_eq_one] at this; exact this
    obtain ⟨c, m, hc, hm, he⟩ := (isHamming_nth (n + 1)).pred hgt
    obtain ⟨j, rfl⟩ := hm.exists_index
    have hn : Nat.nth IsHamming n < Nat.nth IsHamming (n + 1) := nth_lt_iff.2 (by omega)
    rw [he] at hn ⊢
    rcases hc with rfl | rfl | rfl
    · have hj : P ≤ j := by
        by_contra hlt
        have := l2 j (by omega)
        omega
      have := nth_le_iff.2 hj
      exact le_trans (min_le_left _ _) (by omega)
    · have hj : Q ≤ j := by
        by_contra hlt
        have := l3 j (by omega)
        omega
      have := nth_le_iff.2 hj
      exact le_trans (min_le_right _ _) (le_trans (min_le_left _ _) (by omega))
    · have hj : R ≤ j := by
        by_contra hlt
        have := l5 j (by omega)
        omega
      have := nth_le_iff.2 hj
      exact le_trans (min_le_right _ _) (le_trans (min_le_right _ _) (by omega))
  · apply nth_succ_le
    · rcases min_choice (2 * Nat.nth IsHamming P)
        (min (3 * Nat.nth IsHamming Q) (5 * Nat.nth IsHamming R)) with h | h
      · rw [h]; exact (isHamming_nth P).times (Or.inl rfl)
      · rw [h]
        rcases min_choice (3 * Nat.nth IsHamming Q) (5 * Nat.nth IsHamming R) with h' | h'
        · rw [h']; exact (isHamming_nth Q).times (Or.inr (Or.inl rfl))
        · rw [h']; exact (isHamming_nth R).times (Or.inr (Or.inr rfl))
    · exact lt_min h2 (lt_min h3 h5)

/-! ## Machine arithmetic and the operators -/

theorem wrap_of_lt {n : Nat} (h : n < W) : wrap n = n := Nat.mod_eq_of_lt h

theorem wrap_le (n : Nat) : wrap n ≤ n := Nat.mod_le n W

theorem wrap_lt (n : Nat) : wrap n < W := Nat.mod_lt n (by decide)

theorem wsub_of_le {a b : Nat} (hb : b ≤ a) (ha : a < W) : wsub a b = a - b := by
  unfold wsub
  rw [show a + W - b = (a - b) + W by omega, Nat.add_mod_right]
  exact Nat.mod_eq_of_lt (by omega)

theorem HammingNumber.eq_iff (l r : HammingNumber) : l.eq r = true ↔ l = r := by
  cases l; cases r; simp [HammingNumber.eq, and_assoc]

theorem HammingNumber.mul_two (u : HammingNumber) : u.mul 2 = ⟨wrap (u.p + 1), u.q, u.r⟩ := by
  simp [HammingNumber.mul]

theorem HammingNumber.mul_three (u : HammingNumber) : u.mul 3 = ⟨u.p, wrap (u.q + 1), u.r⟩ := by
  simp [HammingNumber.mul]

theorem HammingNumber.mul_five (u : HammingNumber) : u.mul 5 = ⟨u.p, u.q, wrap (u.r + 1)⟩ := by
  simp [HammingNumber.mul]

theorem HammingNumber.lt_iff (l r : HammingNumber) : l.lt r = true ↔ l.value < r.value := by
  simp [HammingNumber.lt]

theorem hmin_choice (less : HammingNumber → HammingNumber → Bool) (a b : HammingNumber) :
    hmin less a b = a ∨ hmin less a b = b := by
  unfold hmin; split <;> simp

theorem value_hmin (a b : HammingNumber) :
    (hmin HammingNumber.lt a b).value = min a.value b.value := by
  unfold hmin
  by_cases h : b.value < a.value
  · rw [if_pos ((HammingNumber.lt_iff b a).2 h)]; exact (min_eq_right (le_of_lt h)).symm
  · rw [if_neg (fun h' => h ((HammingNumber.lt_iff b a).1 h'))]
    exact (min_eq_left (not_lt.1 h)).symm

theorem ExpLe.mono {u : HammingNumber} {m n : Nat} (h : ExpLe u m) (hmn : m ≤ n) : ExpLe u n :=
  ⟨le_trans h.1 hmn, le_trans h.2.1 hmn, le_trans h.2.2 hmn⟩

theorem ExpLe.mul_succ {u : HammingNumber} {n : Nat} (h : ExpLe u n) (fact : Int) :
    ExpLe (u.mul fact) (n + 1) := by
  obtain ⟨h1, h2, h3⟩ := h
  have w1 := wrap_le (u.p + 1)
  have w2 := wrap_le (u.q + 1)
  have w3 := wrap_le (u.r + 1)
  unfold HammingNumber.mul ExpLe
  split_ifs <;> simp <;> omega

theorem advance_spec (read : Nat → Option HammingNumber) (next cand : HammingNumber)
    (ptr : Nat) (fact : Int) (u : HammingNumber) (h : read (wrap (ptr + 1)) = some u) :
    advance read next cand ptr fact =
      some (if next.eq cand then (wrap (ptr + 1), u.mul fact) else (ptr, cand)) := by
  unfold advance
  split <;> simp [h]

/-! ## At least 10000 Hamming numbers are small enough to be multiplied by 5 -/

theorem twoCount_eq (B : Nat) : ∀ (k x : Nat),
    twoCount B x k = ∑ a in Finset.range k, (if 2 ^ a * x ≤ B then 1 else 0) := by
  intro k
  induction k with
  | zero => intro x; simp [twoCount]
  | succ k ih =>
    intro x
    rw [Finset.sum_range_succ', twoCount]
    by_cases hx : x ≤ B
    · rw [if_pos hx, ih (2 * x)]
      simp only [pow_zero, one_mul, if_pos hx]
      congr 1
      apply Finset.sum_congr rfl
      intro a _
      rw [pow_succ, mul_assoc]
    · rw [if_neg hx]
      simp only [pow_zero, one_mul, if_neg hx, add_zero]
      symm
      apply Finset.sum_eq_zero
      intro a _
      rw [if_neg]
      intro h
      apply hx
      calc x ≤ 2 ^ (a + 1) * x := Nat.le_mul_of_pos_left x (by positivity)
        _ ≤ B := h

set_option maxRecDepth 100000 in
theorem twoCount_sum : 10000 ≤ ∑ c in Finset.range 27, ∑ b in Finset.range 40,
    twoCount safeBound (3 ^ b * 5 ^ c) 62 := by decide!

theorem tripleValue_eq (t : Nat × Nat × Nat) :
    tripleValue t = HammingNumber.value ⟨t.2.2, t.2.1, t.1⟩ := rfl

theorem card_smallTriples : smallTriples.card = ∑ c in Finset.range 27,
    ∑ b in Finset.range 40, twoCount safeBound (3 ^ b * 5 ^ c) 62 := by
  unfold smallTriples
  rw [Finset.card_filter, Finset.sum_product]
  apply Finset.sum_congr rfl
  intro c _
  rw [Finset.sum_product]
  apply Finset.sum_congr rfl
  intro b _
  rw [twoCount_eq]
  apply Finset.sum_congr rfl
  intro a _
  simp only [tripleValue, mul_assoc]

theorem tripleValue_injOn : Set.InjOn tripleValue smallTriples := by
  intro t _ t' _ h
  rw [tripleValue_eq, tripleValue_eq] at h
  have := value_injective h
  simp only [HammingNumber.mk.injEq] at this
  obtain ⟨h1, h2, h3⟩ := this
  exact Prod.ext h3 (Prod.ext h2 h1)

theorem count_isHamming_safeBound [DecidablePred IsHamming] :
    10000 ≤ Nat.count IsHamming (safeBound + 1) := by
  have hsub : smallTriples.image tripleValue ⊆
      (Finset.range (safeBound + 1)).filter IsHamming := by
    intro x hx
    obtain ⟨t, ht, hxt⟩ := Finset.mem_image.1 hx
    rw [Finset.mem_filter, Finset.mem_range, ← hxt]
    unfold smallTriples at ht
    refine ⟨Nat.lt_succ_of_le (Finset.mem_filter.1 ht).2, ?_⟩
    rw [tripleValue_eq]; exact isHamming_value _
  calc 10000 ≤ smallTriples.card := by rw [card_smallTriples]; exact twoCount_sum
    _ = (smallTriples.image tripleValue).card :=
        (Finset.card_image_of_injOn tripleValue_injOn).symm
    _ ≤ ((Finset.range (safeBound + 1)).filter IsHamming).card := Finset.card_le_card hsub
    _ = Nat.count IsHamming (safeBound + 1) := (Nat.count_eq_card_filter_range _ _).symm

/-- The Hamming numbers of index below 10000 can be multiplied by 5 in `_intType`. -/
theorem nth_le_safeBound {k : Nat} (hk : k < 10000) : Nat.nth IsHamming k ≤ safeBound := by
  classical
  have h := Nat.nth_lt_of_lt_count (lt_of_lt_of_le hk count_isHamming_safeBound)
  omega

theorem five_mul_nth_lt {k : Nat} (hk : k < 10000) : 5 * Nat.nth IsHamming k < W := by
  have := nth_le_safeBound hk
  unfold safeBound at this
  show 5 * Nat.nth IsHamming k < 18446744073709551616
  omega

/-! ## `Solve_Neat_Hamming`: facts that hold for every comparison -/

theorem neatNext_choice (less : HammingNumber → HammingNumber → Bool) (s : NeatState) :
    neatNext less s = s.next2 ∨ neatNext less s = s.next3 ∨ neatNext less s = s.next5 := by
  unfold neatNext
  rcases hmin_choice less s.next2 (hmin less s.next3 s.next5) with h | h
  · exact Or.inl h
  · rcases hmin_choice less s.next3 s.next5 with h' | h'
    · exact Or.inr (Or.inl (h.trans h'))
    · exact Or.inr (Or.inr (h.trans h'))

theorem neatBounds_init : NeatBounds neatInit := by
  refine ⟨by decide, by decide, by decide, by decide, ?_, ?_, ?_, ?_⟩
  · intro i u h
    cases i with
    | zero =>
      simp [neatInit] at h
      subst h
      simp [ExpLe, HammingNumber.one]
    | succ i => simp [neatInit] at h
  all_goals simp [ExpLe, neatInit, HammingNumber.one]

theorem NeatBounds.next_le {s : NeatState} (hB : NeatBounds s)
    (less : HammingNumber → HammingNumber → Bool) : ExpLe (neatNext less s) s.res.length := by
  rcases neatNext_choice less s with h | h | h <;> rw [h]
  · exact hB.hn2
  · exact hB.hn3
  · exact hB.hn5

theorem NeatBounds.hres_append {s : NeatState} (hB : NeatBounds s)
    (less : HammingNumber → HammingNumber → Bool) (i : Nat) (u : HammingNumber)
    (h : (s.res ++ [neatNext less s])[i]? = some u) : ExpLe u i := by
  rcases Nat.lt_or_ge i s.res.length with hi | hi
  · rw [List.getElem?_append_left hi] at h
    exact hB.hres i u h
  · rw [List.getElem?_append_right hi] at h
    cases hk : i - s.res.length with
    | zero =>
      rw [hk] at h
      simp at h
      subst h
      exact (hB.next_le less).mono hi
    | succ k => rw [hk] at h; simp at h

theorem read_append {l : List HammingNumber} {x : HammingNumber} {i : Nat}
    (h : i ≤ l.length) : ∃ u, (l ++ [x])[i]? = some u := by
  have hi : i < (l ++ [x]).length := by simp; omega
  exact ⟨(l ++ [x])[i], List.getElem?_eq_getElem hi⟩

/-- The explicit form of one iteration of `Solve_Neat_Hamming`: it always succeeds when the three pointers
index stored elements and the incremented length fits `size_t`. -/
theorem neatStep_spec (less : HammingNumber → HammingNumber → Bool) (s : NeatState)
    (hB : NeatBounds s) (hW : s.res.length + 1 < W) :
    ∃ u2 u3 u5,
      (s.res ++ [neatNext less s])[s.p + 1]? = some u2 ∧
      (s.res ++ [neatNext less s])[s.q + 1]? = some u3 ∧
      (s.res ++ [neatNext less s])[s.r + 1]? = some u5 ∧
      neatStep less s = some
        ⟨s.res ++ [neatNext less s],
          if (neatNext less s).eq s.next2 then s.p + 1 else s.p,
          if (neatNext less s).eq s.next3 then s.q + 1 else s.q,
          if (neatNext less s).eq s.next5 then s.r + 1 else s.r,
          if (neatNext less s).eq s.next2 then u2.mul 2 else s.next2,
          if (neatNext less s).eq s.next3 then u3.mul 3 else s.next3,
          if (neatNext less s).eq s.next5 then u5.mul 5 else s.next5⟩ := by
  have hp := hB.hp
  have hq := hB.hq
  have hr := hB.hr
  obtain ⟨u2, h2⟩ := read_append (l := s.res) (x := neatNext less s) (i := s.p + 1) (by omega)
  obtain ⟨u3, h3⟩ := read_append (l := s.res) (x := neatNext less s) (i := s.q + 1) (by omega)
  obtain ⟨u5, h5⟩ := read_append (l := s.res) (x := neatNext less s) (i := s.r + 1) (by omega)
  refine ⟨u2, u3, u5, h2, h3, h5, ?_⟩
  have w2 : wrap (s.p + 1) = s.p + 1 := wrap_of_lt (by omega)
  have w3 : wrap (s.q + 1) = s.q + 1 := wrap_of_lt (by omega)
  have w5 : wrap (s.r + 1) = s.r + 1 := wrap_of_lt (by omega)
  unfold neatStep
  dsimp only
  rw [advance_spec _ _ _ _ _ u2 (by rw [w2]; exact h2),
    advance_spec _ _ _ _ _ u3 (by rw [w3]; exact h3),
    advance_spec _ _ _ _ _ u5 (by rw [w5]; exact h5)]
  simp only [Option.some_bind, w2, w3, w5]
  congr 2 <;> split <;> rfl

theorem neatStep_bounds (less : HammingNumber → HammingNumber → Bool) (s s' : NeatState)
    (hB : NeatBounds s) (hW : s.res.length + 1 < W) (hs : neatStep less s = some s') :
    NeatBounds s' ∧ s'.res.length = s.res.length + 1 := by
  obtain ⟨u2, u3, u5, h2, h3, h5, he⟩ := neatStep_spec less s hB hW
  rw [he] at hs
  have hs' := (Option.some.inj hs).symm
  subst hs'
  have hp := hB.hp
  have hq := hB.hq
  have hr := hB.hr
  have e2 := ((hB.hres_append less _ _ h2).mul_succ 2).mono (show s.p + 1 + 1 ≤ s.res.length + 1 by omega)
  have e3 := ((hB.hres_append less _ _ h3).mul_succ 3).mono (show s.q + 1 + 1 ≤ s.res.length + 1 by omega)
  have e5 := ((hB.hres_append less _ _ h5).mul_succ 5).mono (show s.r + 1 + 1 ≤ s.res.length + 1 by omega)
  refine ⟨⟨?_, ?_, ?_, ?_, ?_, ?_, ?_, ?_⟩, ?_⟩
  · simp
  · simp only [List.length_append, List.length_singleton]; split <;> omega
  · simp only [List.length_append, List.length_singleton]; split <;> omega
  · simp only [List.length_append, List.length_singleton]; split <;> omega
  · exact hB.hres_append less
  · simp only [List.length_append, List.length_singleton]
    split
    · exact e2
    · exact hB.hn2.mono (by omega)
  · simp only [List.length_append, List.length_singleton]
    split
    · exact e3
    · exact hB.hn3.mono (by omega)
  · simp only [List.length_append, List.length_singleton]
    split
    · exact e5
    · exact hB.hn5.mono (by omega)
  · simp

/-- The loop of `Solve_Neat_Hamming` terminates within `target + 1 - res.size()` iterations
with `target + 1` stored elements, and carries along every property `I` that one iteration preserves. -/
theorem neatLoop_inv (less : HammingNumber → HammingNumber → Bool) (target : Nat)
    (I : NeatState → Prop) (hT : target + 1 < W)
    (hstep : ∀ s s', I s → NeatBounds s → s.res.length < target + 1 →
      neatStep less s = some s' → I s') :
    ∀ fuel s, I s → NeatBounds s → s.res.length ≤ target + 1 →
      target + 1 ≤ s.res.length + fuel →
      ∃ s', neatLoop less target fuel s = some s' ∧ I s' ∧ NeatBounds s' ∧
        s'.res.length = target + 1 := by
  have hw : wrap (target + 1) = target + 1 := wrap_of_lt hT
  intro fuel
  induction fuel with
  | zero =>
    intro s hI hB hle hge
    refine ⟨s, ?_, hI, hB, by omega⟩
    unfold neatLoop
    rw [hw, if_neg (by omega)]
  | succ fuel ih =>
    intro s hI hB hle hge
    unfold neatLoop
    rw [hw]
    by_cases hc : s.res.length < target + 1
    · rw [if_pos hc]
      obtain ⟨u2, u3, u5, -, -, -, he⟩ := neatStep_spec less s hB (by omega)
      obtain ⟨hB', hlen⟩ := neatStep_bounds less s _ hB (by omega) he
      have hI' := hstep s _ hI hB hc he
      rw [he, Option.some_bind]
      exact ih _ hI' hB' (by omega) (by omega)
    · rw [if_neg hc]
      exact ⟨s, rfl, hI, hB, by omega⟩

/-! ## `Solve_Neater_Hamming` against `Solve_Neat_Hamming` -/

theorem sim_init : Sim neatInit neaterInit := by
  refine ⟨?_, ?_, ?_, ?_, rfl, rfl, rfl, rfl, rfl, rfl⟩ <;> simp [neatInit, neaterInit]

theorem read_window (l : List HammingNumber) (o i : Nat) (ho : o ≤ i) (hi : i < W) :
    (l.drop o)[wsub i o]? = l[i]? := by
  rw [wsub_of_le ho hi, List.getElem?_drop]
  congr 1
  omega

theorem neaterStep_sim (less : HammingNumber → HammingNumber → Bool) (d d' : NeatState)
    (w : NeaterState) (hS : Sim d w) (hB : NeatBounds d) (hW : d.res.length + 1 < W)
    (hd : neatStep less d = some d') :
    ∃ w', neaterStep less w = some w' ∧ Sim d' w' := by
  obtain ⟨u2, u3, u5, h2, h3, h5, he⟩ := neatStep_spec less d hB hW
  rw [he] at hd
  have hd' := (Option.some.inj hd).symm
  subst hd'
  have hp := hB.hp
  have hq := hB.hq
  have hr := hB.hr
  have hop := hS.op
  have hoq := hS.oq
  have hor := hS.or
  have w2 : wrap (d.p + 1) = d.p + 1 := wrap_of_lt (by omega)
  have w3 : wrap (d.q + 1) = d.q + 1 := wrap_of_lt (by omega)
  have w5 : wrap (d.r + 1) = d.r + 1 := wrap_of_lt (by omega)
  have hres : w.res ++ [neatNext less d] = (d.res ++ [neatNext less d]).drop w.offset := by
    rw [hS.res, List.drop_append_of_le_length (by omega)]
  have r2 : (w.res ++ [neatNext less d])[wsub (wrap (d.p + 1)) w.offset]? = some u2 := by
    rw [hres, w2, read_window _ _ _ (by omega) (by omega)]; exact h2
  have r3 : (w.res ++ [neatNext less d])[wsub (wrap (d.q + 1)) w.offset]? = some u3 := by
    rw [hres, w3, read_window _ _ _ (by omega) (by omega)]; exact h3
  have r5 : (w.res ++ [neatNext less d])[wsub (wrap (d.r + 1)) w.offset]? = some u5 := by
    rw [hres, w5, read_window _ _ _ (by omega) (by omega)]; exact h5
  have hn : neaterNext less w = neatNext less d := by
    unfold neaterNext neatNext
    rw [hS.next2, hS.next3, hS.next5]
  have wo : wrap (w.offset + 1) = w.offset + 1 := wrap_of_lt (by omega)
  unfold neaterStep
  dsimp only
  rw [hn, hS.p, hS.q, hS.r, hS.next2, hS.next3, hS.next5]
  rw [advance_spec _ _ _ _ _ u2 r2, advance_spec _ _ _ _ _ u3 r3, advance_spec _ _ _ _ _ u5 r5]
  simp only [Option.some_bind, w2, w3, w5, wo, apply_ite Prod.fst, apply_ite Prod.snd]
  split_ifs
  all_goals refine ⟨_, rfl, ?_⟩
  all_goals
    refine ⟨?_, ?_, ?_, ?_, rfl, rfl, rfl, rfl, rfl, rfl⟩ <;>
    first
      | exact hres
      | (dsimp only; rw [hres, List.tail_drop])
      | (dsimp only; omega)

theorem sim_cond (target : Nat) (d : NeatState) (w : NeaterState) (hS : Sim d w)
    (hB : NeatBounds d) (hle : d.res.length ≤ target + 1) (hT : target + 1 < W) :
    w.res.length < wrap (wsub target w.offset + 1) ↔ d.res.length < wrap (target + 1) := by
  have hp := hB.hp
  have hop := hS.op
  rw [wsub_of_le (by omega) (by omega), wrap_of_lt (show target - w.offset + 1 < W by omega),
    wrap_of_lt hT, hS.res, List.length_drop]
  omega

theorem neaterLoop_sim (less : HammingNumber → HammingNumber → Bool) (target : Nat)
    (hT : target + 1 < W) :
    ∀ fuel d w d', Sim d w → NeatBounds d → d.res.length ≤ target + 1 →
      neatLoop less target fuel d = some d' →
      ∃ w', neaterLoop less target fuel w = some w' ∧ Sim d' w' := by
  intro fuel
  induction fuel with
  | zero =>
    intro d w d' hS hB hle hd
    unfold neatLoop at hd
    unfold neaterLoop
    by_cases hc : d.res.length < wrap (target + 1)
    · rw [if_pos hc] at hd; exact absurd hd (by simp)
    · rw [if_neg hc] at hd
      rw [if_neg (fun h => hc ((sim_cond target d w hS hB hle hT).1 h))]
      have hd' := Option.some.inj hd
      subst hd'
      exact ⟨w, rfl, hS⟩
  | succ fuel ih =>
    intro d w d' hS hB hle hd
    unfold neatLoop at hd
    unfold neaterLoop
    by_cases hc : d.res.length < wrap (target + 1)
    · rw [if_pos hc] at hd
      rw [if_pos ((sim_cond target d w hS hB hle hT).2 hc)]
      rw [wrap_of_lt hT] at hc
      obtain ⟨u2, u3, u5, -, -, -, he⟩ := neatStep_spec less d hB (by omega)
      obtain ⟨hB1, hlen⟩ := neatStep_bounds less d _ hB (by omega) he
      obtain ⟨w1, hw1, hS1⟩ := neaterStep_sim less d _ w hS hB (by omega) he
      rw [he, Option.some_bind] at hd
      rw [hw1, Option.some_bind]
      exact ih _ w1 d' hS1 hB1 (by omega) hd
    · rw [if_neg hc] at hd
      rw [if_neg (fun h => hc ((sim_cond target d w hS hB hle hT).1 h))]
      have hd' := Option.some.inj hd
      subst hd'
      exact ⟨w, rfl, hS⟩

/-- With `target + 1` representable, `Solve_Neat_Hamming` reaches a final state that holds
`target + 1` elements and every property `I` kept by the iterations, and stores the element at
position `target`. -/
theorem neatResult_inv (less : HammingNumber → HammingNumber → Bool) (target : Nat)
    (I : NeatState → Prop) (hT : target + 1 < W) (h0 : I neatInit)
    (hstep : ∀ s s', I s → NeatBounds s → s.res.length < target + 1 →
      neatStep less s = some s' → I s') :
    ∃ s h, neatLoop less target target neatInit = some s ∧ I s ∧ NeatBounds s ∧
      s.res.length = target + 1 ∧ s.res[target]? = some h ∧ neatResult less target = some h := by
  obtain ⟨s, hs, hI, hB, hlen⟩ := neatLoop_inv less target I hT hstep target neatInit h0
    neatBounds_init (by simp [neatInit]) (by simp [neatInit]; omega)
  have ht : target < s.res.length := by omega
  have hr : s.res[target]? = some s.res[target] := List.getElem?_eq_getElem ht
  refine ⟨s, _, hs, hI, hB, hlen, hr, ?_⟩
  unfold neatResult
  rw [hs, Option.some_bind, hr]

theorem neaterResult_eq (less : HammingNumber → HammingNumber → Bool) (target : Nat)
    (hT : target + 1 < W) :
    ∃ h, neatResult less target = some h ∧ neaterResult less target = some h := by
  obtain ⟨d, h, hd, -, hB, hlen, hr, hres⟩ :=
    neatResult_inv less target (fun _ => True) hT trivial (fun _ _ _ _ _ _ => trivial)
  obtain ⟨w, hw, hS⟩ := neaterLoop_sim less target hT target neatInit neaterInit d sim_init
    neatBounds_init (by simp [neatInit]) hd
  refine ⟨h, hres, ?_⟩
  unfold neaterResult
  have hp := hB.hp
  have hop := hS.op
  rw [hw, Option.some_bind, hS.res, read_window _ _ _ (by omega) (by omega), hr]

/-! ## `Solve_Neat_Hamming` under the exact comparison -/

theorem value_mul_two (u : HammingNumber) (h : u.p + 1 < W) : (u.mul 2).value = 2 * u.value := by
  rw [HammingNumber.mul_two, wrap_of_lt h]
  simp only [HammingNumber.value]
  ring

theorem value_mul_three (u : HammingNumber) (h : u.q + 1 < W) :
    (u.mul 3).value = 3 * u.value := by
  rw [HammingNumber.mul_three, wrap_of_lt h]
  simp only [HammingNumber.value]
  ring

theorem value_mul_five (u : HammingNumber) (h : u.r + 1 < W) :
    (u.mul 5).value = 5 * u.value := by
  rw [HammingNumber.mul_five, wrap_of_lt h]
  simp only [HammingNumber.value]
  ring

theorem eq_iff_value (l r : HammingNumber) : l.eq r = true ↔ l.value = r.value := by
  rw [HammingNumber.eq_iff]
  exact ⟨fun h => by rw [h], fun h => value_injective h⟩

theorem value_neatNext (s : NeatState) :
    (neatNext HammingNumber.lt s).value = min s.next2.value (min s.next3.value s.next5.value) := by
  unfold neatNext
  rw [value_hmin, value_hmin]

/-- What one pointer of the merge does: a candidate `c * h P` that is at least the new
element `h (n + 1)` either equals it, and then the next candidate `c * h (P + 1)` is above
it, or is above it already. -/
theorem pointer_step (c n P : Nat) (hc : 0 < c)
    (hmin : Nat.nth IsHamming (n + 1) ≤ c * Nat.nth IsHamming P)
    (l : ∀ j, j < P → c * Nat.nth IsHamming j ≤ Nat.nth IsHamming n) :
    (c * Nat.nth IsHamming P = Nat.nth IsHamming (n + 1) →
      Nat.nth IsHamming (n + 1) < c * Nat.nth IsHamming (P + 1) ∧
      ∀ j, j < P + 1 → c * Nat.nth IsHamming j ≤ Nat.nth IsHamming (n + 1)) ∧
    (c * Nat.nth IsHamming P ≠ Nat.nth IsHamming (n + 1) →
      Nat.nth IsHamming (n + 1) < c * Nat.nth IsHamming P ∧
      ∀ j, j < P → c * Nat.nth IsHamming j ≤ Nat.nth IsHamming (n + 1)) := by
  have hn : Nat.nth IsHamming n ≤ Nat.nth IsHamming (n + 1) := nth_le_iff.2 (by omega)
  constructor
  · intro he
    constructor
    · rw [← he]
      exact Nat.mul_lt_mul_of_pos_left (nth_lt_iff.2 (by omega)) hc
    · intro j hj
      rcases Nat.lt_or_ge j P with h | h
      · exact le_trans (l j h) hn
      · have : j = P := by omega
        subst this
        exact le_of_eq he
  · intro hne
    exact ⟨lt_of_le_of_ne hmin (Ne.symm hne), fun j hj => le_trans (l j hj) hn⟩

theorem NeatExact.value_next {s : NeatState} {n P Q R : Nat} (hE : NeatExact s n P Q R) :
    (neatNext HammingNumber.lt s).value = Nat.nth IsHamming (n + 1) := by
  rw [value_neatNext, hE.v2, hE.v3, hE.v5]
  exact merge_next n P Q R hE.g2 hE.g3 hE.g5 hE.l2 hE.l3 hE.l5

theorem NeatExact.vals_append {s : NeatState} {n P Q R : Nat} (hE : NeatExact s n P Q R)
    (i : Nat) (u : HammingNumber)
    (h : (s.res ++ [neatNext HammingNumber.lt s])[i + 1]? = some u) :
    u.value = Nat.nth IsHamming i := by
  have hlen := hE.len
  rcases Nat.lt_or_ge (i + 1) s.res.length with hi | hi
  · rw [List.getElem?_append_left hi] at h
    exact hE.vals i u h
  · rw [List.getElem?_append_right hi] at h
    cases hk : i + 1 - s.res.length with
    | zero =>
      rw [hk] at h
      simp at h
      subst h
      have : i = n + 1 := by omega
      rw [this]
      exact hE.value_next
    | succ k => rw [hk] at h; simp at h

/-- One iteration of `Solve_Neat_Hamming` under the exact comparison keeps `NeatExact`: it appends the
next Hamming number and re-establishes the three candidates. -/
theorem neatStep_exact (s s' : NeatState) (n P Q R : Nat) (hE : NeatExact s n P Q R)
    (hB : NeatBounds s) (hW : s.res.length + 1 < W)
    (hs : neatStep HammingNumber.lt s = some s') :
    ∃ P' Q' R', NeatExact s' (n + 1) P' Q' R' := by
  obtain ⟨u2, u3, u5, h2, h3, h5, he⟩ := neatStep_spec HammingNumber.lt s hB hW
  rw [he] at hs
  have hs' := (Option.some.inj hs).symm
  subst hs'
  have hlen := hE.len
  have hp := hE.hp
  have hq := hE.hq
  have hr := hE.hr
  have bp := hB.hp
  have bq := hB.hq
  have br := hB.hr
  have hnext := hE.value_next
  -- the values read under the advanced pointers
  have x2 : u2.value = Nat.nth IsHamming (P + 1) :=
    hE.vals_append (P + 1) u2 (by rw [← hp]; exact h2)
  have x3 : u3.value = Nat.nth IsHamming (Q + 1) :=
    hE.vals_append (Q + 1) u3 (by rw [← hq]; exact h3)
  have x5 : u5.value = Nat.nth IsHamming (R + 1) :=
    hE.vals_append (R + 1) u5 (by rw [← hr]; exact h5)
  have y2 : (u2.mul 2).value = 2 * Nat.nth IsHamming (P + 1) := by
    rw [value_mul_two u2 (by have := (hB.hres_append _ _ _ h2).1; omega), x2]
  have y3 : (u3.mul 3).value = 3 * Nat.nth IsHamming (Q + 1) := by
    rw [value_mul_three u3 (by have := (hB.hres_append _ _ _ h3).2.1; omega), x3]
  have y5 : (u5.mul 5).value = 5 * Nat.nth IsHamming (R + 1) := by
    rw [value_mul_five u5 (by have := (hB.hres_append _ _ _ h5).2.2; omega), x5]
  -- the three tie tests
  have c2 : (neatNext HammingNumber.lt s).eq s.next2 = true ↔
      2 * Nat.nth IsHamming P = Nat.nth IsHamming (n + 1) := by
    rw [eq_iff_value, hnext, hE.v2]; exact eq_comm
  have c3 : (neatNext HammingNumber.lt s).eq s.next3 = true ↔
      3 * Nat.nth IsHamming Q = Nat.nth IsHamming (n + 1) := by
    rw [eq_iff_value, hnext, hE.v3]; exact eq_comm
  have c5 : (neatNext HammingNumber.lt s).eq s.next5 = true ↔
      5 * Nat.nth IsHamming R = Nat.nth IsHamming (n + 1) := by
    rw [eq_iff_value, hnext, hE.v5]; exact eq_comm
  have m2 : Nat.nth IsHamming (n + 1) ≤ 2 * Nat.nth IsHamming P := by
    rw [← hnext, value_neatNext, hE.v2]; exact min_le_left _ _
  have m3 : Nat.nth IsHamming (n + 1) ≤ 3 * Nat.nth IsHamming Q := by
    rw [← hnext, value_neatNext, hE.v3]; exact le_trans (min_le_right _ _) (min_le_left _ _)
  have m5 : Nat.nth IsHamming (n + 1) ≤ 5 * Nat.nth IsHamming R := by
    rw [← hnext, value_neatNext, hE.v5]; exact le_trans (min_le_right _ _) (min_le_right _ _)
  obtain ⟨a2, b2⟩ := pointer_step 2 n P (by decide) m2 hE.l2
  obtain ⟨a3, b3⟩ := pointer_step 3 n Q (by decide) m3 hE.l3
  obtain ⟨a5, b5⟩ := pointer_step 5 n R (by decide) m5 hE.l5
  refine ⟨if (neatNext HammingNumber.lt s).eq s.next2 = true then P + 1 else P,
    if (neatNext HammingNumber.lt s).eq s.next3 = true then Q + 1 else Q,
    if (neatNext HammingNumber.lt s).eq s.next5 = true then R + 1 else R, ?_⟩
  refine ⟨?_, ?_, ?_, ?_, ?_, ?_, ?_, ?_, ?_, ?_, ?_, ?_, ?_, ?_, ?_⟩
  · simp only [List.length_append, List.length_singleton]; omega
  · show (s.res ++ [neatNext HammingNumber.lt s])[0]? = _
    rw [List.getElem?_append_left (by omega)]; exact hE.head
  · exact hE.vals_append
  · dsimp only; split_ifs <;> omega
  · dsimp only; split_ifs <;> omega
  · dsimp only; split_ifs <;> omega
  · dsimp only
    split_ifs
    · exact y2
    · exact hE.v2
  · dsimp only
    split_ifs
    · exact y3
    · exact hE.v3
  · dsimp only
    split_ifs
    · exact y5
    · exact hE.v5
  · split_ifs with h
    · exact (a2 (c2.1 h)).1
    · exact (b2 (fun e => h (c2.2 e))).1
  · split_ifs with h
    · exact (a3 (c3.1 h)).1
    · exact (b3 (fun e => h (c3.2 e))).1
  · split_ifs with h
    · exact (a5 (c5.1 h)).1
    · exact (b5 (fun e => h (c5.2 e))).1
  · split_ifs with h
    · exact (a2 (c2.1 h)).2
    · exact (b2 (fun e => h (c2.2 e))).2
  · split_ifs with h
    · exact (a3 (c3.1 h)).2
    · exact (b3 (fun e => h (c3.2 e))).2
  · split_ifs with h
    · exact (a5 (c5.1 h)).2
    · exact (b5 (fun e => h (c5.2 e))).2

theorem neatStep_init : neatStep HammingNumber.lt neatInit =
    some ⟨[HammingNumber.one, HammingNumber.one], 1, 1, 1, ⟨1, 0, 0⟩, ⟨0, 1, 0⟩, ⟨0, 0, 1⟩⟩ := by
  decide

theorem neatExact_first : NeatExact
    ⟨[HammingNumber.one, HammingNumber.one], 1, 1, 1, ⟨1, 0, 0⟩, ⟨0, 1, 0⟩, ⟨0, 0, 1⟩⟩ 0 0 0 0 := by
  refine ⟨rfl, rfl, ?_, rfl, rfl, rfl, ?_, ?_, ?_, ?_, ?_, ?_, ?_, ?_, ?_⟩
  · intro i u h
    cases i with
    | zero =>
      simp at h
      subst h
      rw [nth_zero_eq_one]; rfl
    | succ i => simp at h
  all_goals (rw [nth_zero_eq_one]; decide)

theorem neatStep_inv (target : Nat) (hT : target + 1 < W) (s s' : NeatState) (hI : NeatInv s)
    (hB : NeatBounds s) (hlt : s.res.length < target + 1)
    (hs : neatStep HammingNumber.lt s = some s') : NeatInv s' := by
  rcases hI with rfl | ⟨n, P, Q, R, hE⟩
  · rw [neatStep_init] at hs
    have hs' := (Option.some.inj hs).symm
    subst hs'
    exact Or.inr ⟨0, 0, 0, 0, neatExact_first⟩
  · obtain ⟨P', Q', R', hE'⟩ := neatStep_exact s s' n P Q R hE hB (by omega) hs
    exact Or.inr ⟨n + 1, P', Q', R', hE'⟩

/-- Under the exact comparison and for a target `N + 1` that leaves `N + 2` representable,
`Solve_Neat_Hamming` stores a triple whose magnitude is the Hamming number of index `N`. -/
theorem neatResult_succ (N : Nat) (hT : N + 2 < W) :
    ∃ h, neatResult HammingNumber.lt (N + 1) = some h ∧ h.value = Nat.nth IsHamming N := by
  obtain ⟨s, h, -, hI, -, hlen, hr, hres⟩ :=
    neatResult_inv HammingNumber.lt (N + 1) NeatInv hT (Or.inl rfl) (neatStep_inv (N + 1) hT)
  refine ⟨h, hres, ?_⟩
  rcases hI with rfl | ⟨n, P, Q, R, hE⟩
  · simp [neatInit] at hlen
  · exact hE.vals N h hr

theorem neatResult_zero : neatResult HammingNumber.lt 0 = some HammingNumber.one := by decide

/-! ## `Solve_Naive` -/

theorem foldl_min_le (xs : List Nat) : ∀ x, xs.foldl min x ≤ x ∧ ∀ y ∈ xs, xs.foldl min x ≤ y := by
  induction xs with
  | nil => intro x; simp
  | cons a xs ih =>
    intro x
    obtain ⟨h1, h2⟩ := ih (min x a)
    rw [List.foldl_cons]
    refine ⟨le_trans h1 (min_le_left _ _), ?_⟩
    intro y hy
    rcases List.mem_cons.1 hy with rfl | hy
    · exact le_trans h1 (min_le_right _ _)
    · exact h2 y hy

theorem foldl_min_mem (xs : List Nat) : ∀ x, xs.foldl min x = x ∨ xs.foldl min x ∈ xs := by
  induction xs with
  | nil => intro x; simp
  | cons a xs ih =>
    intro x
    rw [List.foldl_cons]
    rcases ih (min x a) with h | h
    · rcases min_choice x a with h' | h'
      · left; rw [h, h']
      · right; rw [h, h']; exact List.mem_cons_self _ _
    · right; exact List.mem_cons_of_mem _ h

theorem pqTop_eq {l : List Nat} {m : Nat} (hm : m ∈ l) (hle : ∀ x ∈ l, m ≤ x) :
    pqTop l = some m := by
  cases l with
  | nil => simp at hm
  | cons a xs =>
    show some (xs.foldl min a) = some m
    rw [Option.some.injEq]
    apply le_antisymm
    · rcases List.mem_cons.1 hm with rfl | h
      · exact (foldl_min_le xs _).1
      · exact (foldl_min_le xs a).2 m h
    · apply hle
      rcases foldl_min_mem xs a with h | h
      · rw [h]; exact List.mem_cons_self _ _
      · exact List.mem_cons_of_mem _ h

theorem naivePush_tracer (red : Nat → Nat) (m : Nat) (st : List Nat × List Nat) (it x : Nat) :
    x ∈ (naivePush red m st it).2 ↔ x ∈ st.2 ∨ x = red (it * m) := by
  unfold naivePush
  dsimp only
  split
  · constructor
    · exact Or.inl
    · rintro (h | rfl)
      · exact h
      · assumption
  · simp only [List.mem_cons]
    tauto

theorem naivePush_pq (red : Nat → Nat) (m : Nat) (st : List Nat × List Nat) (it x : Nat) :
    x ∈ (naivePush red m st it).1 ↔ x ∈ st.1 ∨ (x = red (it * m) ∧ x ∉ st.2) := by
  unfold naivePush
  dsimp only
  split
  · rename_i h
    constructor
    · exact Or.inl
    · rintro (h' | ⟨rfl, h'⟩)
      · exact h'
      · exact absurd h h'
  · rename_i h
    simp only [List.mem_cons]
    constructor
    · rintro (rfl | h')
      · exact Or.inr ⟨rfl, h⟩
      · exact Or.inl h'
    · rintro (h' | ⟨rfl, -⟩)
      · exact Or.inr h'
      · exact Or.inl rfl

theorem naivePush_nodup (red : Nat → Nat) (m : Nat) (st : List Nat × List Nat) (it : Nat)
    (hn : st.1.Nodup) (hs : ∀ x ∈ st.1, x ∈ st.2) :
    (naivePush red m st it).1.Nodup ∧
      ∀ x ∈ (naivePush red m st it).1, x ∈ (naivePush red m st it).2 := by
  unfold naivePush
  dsimp only
  split
  · exact ⟨hn, hs⟩
  · rename_i h
    refine ⟨List.nodup_cons.2 ⟨fun h' => h (hs _ h'), hn⟩, ?_⟩
    intro x hx
    rcases List.mem_cons.1 hx with rfl | hx
    · exact List.mem_cons_self _ _
    · exact List.mem_cons_of_mem _ (hs x hx)

/-- The `for` loop over `_multipliers`: what `_PQ` and `_tracer` hold afterwards. -/
theorem naiveFold_spec (red : Nat → Nat) (m : Nat) (pq tr : List Nat) :
    (∀ x, x ∈ (multipliers.foldl (naivePush red m) (pq, tr)).2 ↔
      x ∈ tr ∨ x = red (2 * m) ∨ x = red (3 * m) ∨ x = red (5 * m)) ∧
    (∀ x, x ∈ (multipliers.foldl (naivePush red m) (pq, tr)).1 ↔
      x ∈ pq ∨ ((x = red (2 * m) ∨ x = red (3 * m) ∨ x = red (5 * m)) ∧ x ∉ tr)) ∧
    (pq.Nodup → (∀ x ∈ pq, x ∈ tr) →
      (multipliers.foldl (naivePush red m) (pq, tr)).1.Nodup) := by
  simp only [multipliers, List.foldl_cons, List.foldl_nil]
  refine ⟨?_, ?_, ?_⟩
  · intro x
    simp only [naivePush_tracer]
    tauto
  · intro x
    simp only [naivePush_pq, naivePush_tracer]
    tauto
  · intro hn hs
    obtain ⟨n1, s1⟩ := naivePush_nodup red m (pq, tr) 2 hn hs
    obtain ⟨n2, s2⟩ := naivePush_nodup red m _ 3 n1 s1
    exact (naivePush_nodup red m _ 5 n2 s2).1

theorem NaiveInv.isHamming_of_mem {s : NaiveState} (hI : NaiveInv s) {x : Nat}
    (hx : x ∈ s.tracer) : IsHamming x := by
  rcases (hI.tr x).1 hx with rfl | ⟨j, -, rfl | rfl | rfl⟩
  · exact isHamming_one
  · exact (isHamming_nth j).times (Or.inl rfl)
  · exact (isHamming_nth j).times (Or.inr (Or.inl rfl))
  · exact (isHamming_nth j).times (Or.inr (Or.inr rfl))

theorem NaiveInv.nth_mem_tracer {s : NaiveState} (hI : NaiveInv s) :
    Nat.nth IsHamming s.cntr ∈ s.tracer := by
  rw [hI.tr]
  rcases Nat.eq_zero_or_pos s.cntr with h0 | hpos
  · left; rw [h0, nth_zero_eq_one]
  · right
    have hgt : 1 < Nat.nth IsHamming s.cntr := by
      have : Nat.nth IsHamming 0 < Nat.nth IsHamming s.cntr := nth_lt_iff.2 hpos
      rwa [nth_zero_eq_one] at this
    obtain ⟨c, m', hc, hm', he⟩ := (isHamming_nth s.cntr).pred hgt
    obtain ⟨j, rfl⟩ := hm'.exists_index
    have hj : j < s.cntr := by
      apply nth_lt_iff.1
      have := nth_pos j
      rw [he]
      rcases hc with rfl | rfl | rfl <;> omega
    refine ⟨j, hj, ?_⟩
    rw [he]
    rcases hc with rfl | rfl | rfl
    · exact Or.inl rfl
    · exact Or.inr (Or.inl rfl)
    · exact Or.inr (Or.inr rfl)

/-- One iteration of the loop of `Solve_Naive`, for a reduction `red` that leaves the three products
of the current Hamming number unchanged: the least element of `_PQ` is the Hamming number of
index `cntr`, it becomes `_resultInt`, and the invariant holds again. -/
theorem naiveStep_inv (red : Nat → Nat) (s : NaiveState) (hI : NaiveInv s)
    (hW : s.cntr + 1 < W)
    (hred : ∀ c, c = 2 ∨ c = 3 ∨ c = 5 →
      red (c * Nat.nth IsHamming s.cntr) = c * Nat.nth IsHamming s.cntr) :
    ∃ s', naiveStep red s = some s' ∧ NaiveInv s' ∧ s'.cntr = s.cntr + 1 ∧
      s'.resultInt = Nat.nth IsHamming s.cntr ∧
      pqTop s.pq = some (Nat.nth IsHamming s.cntr) := by
  have hmem : Nat.nth IsHamming s.cntr ∈ s.pq := (hI.pq _).2 ⟨hI.nth_mem_tracer, le_refl _⟩
  have htop : pqTop s.pq = some (Nat.nth IsHamming s.cntr) :=
    pqTop_eq hmem (fun x hx => ((hI.pq x).1 hx).2)
  have hw : wrap (s.cntr + 1) = s.cntr + 1 := wrap_of_lt hW
  have hmpos := nth_pos s.cntr
  obtain ⟨ft, fp, fn⟩ := naiveFold_spec red (Nat.nth IsHamming s.cntr)
    (s.pq.erase (Nat.nth IsHamming s.cntr)) s.tracer
  rw [hred 2 (Or.inl rfl), hred 3 (Or.inr (Or.inl rfl)), hred 5 (Or.inr (Or.inr rfl))] at ft fp
  have hstep : naiveStep red s = some
      ⟨(multipliers.foldl (naivePush red (Nat.nth IsHamming s.cntr))
          (s.pq.erase (Nat.nth IsHamming s.cntr), s.tracer)).1,
        (multipliers.foldl (naivePush red (Nat.nth IsHamming s.cntr))
          (s.pq.erase (Nat.nth IsHamming s.cntr), s.tracer)).2,
        s.cntr + 1, Nat.nth IsHamming s.cntr⟩ := by
    unfold naiveStep
    rw [htop, hw]
  refine ⟨_, hstep, ⟨?_, ?_, ?_, ?_⟩, rfl, rfl, htop⟩
  · exact fn (hI.nodup.erase _) (fun x hx => ((hI.pq x).1 (List.mem_of_mem_erase hx)).1)
  · intro x
    dsimp only
    rw [ft, hI.tr]
    constructor
    · rintro ((h | ⟨j, hj, h⟩) | h)
      · exact Or.inl h
      · exact Or.inr ⟨j, by omega, h⟩
      · exact Or.inr ⟨s.cntr, by omega, h⟩
    · rintro (h | ⟨j, hj, h⟩)
      · exact Or.inl (Or.inl h)
      · rcases Nat.lt_or_ge j s.cntr with hlt | hge
        · exact Or.inl (Or.inr ⟨j, hlt, h⟩)
        · have : j = s.cntr := by omega
          subst this
          exact Or.inr h
  · intro x
    dsimp only
    rw [fp, ft, hI.nodup.mem_erase_iff, hI.pq]
    have hkey : IsHamming x → (Nat.nth IsHamming (s.cntr + 1) ≤ x ↔ Nat.nth IsHamming s.cntr < x) := by
      intro hx
      constructor
      · intro h
        exact lt_of_lt_of_le (nth_lt_iff.2 (Nat.lt_succ_self _)) h
      · exact nth_succ_le hx
    constructor
    · rintro (⟨hne, htr, hle⟩ | ⟨h, hnot⟩)
      · exact ⟨Or.inl htr, (hkey (hI.isHamming_of_mem htr)).2 (lt_of_le_of_ne hle (Ne.symm hne))⟩
      · refine ⟨Or.inr h, ?_⟩
        have hx : IsHamming x := by
          rcases h with rfl | rfl | rfl
          · exact (isHamming_nth _).times (Or.inl rfl)
          · exact (isHamming_nth _).times (Or.inr (Or.inl rfl))
          · exact (isHamming_nth _).times (Or.inr (Or.inr rfl))
        rw [hkey hx]
        rcases h with rfl | rfl | rfl <;> omega
    · rintro ⟨h, hle⟩
      have hx : IsHamming x := by
        rcases h with htr | rfl | rfl | rfl
        · exact hI.isHamming_of_mem htr
        · exact (isHamming_nth _).times (Or.inl rfl)
        · exact (isHamming_nth _).times (Or.inr (Or.inl rfl))
        · exact (isHamming_nth _).times (Or.inr (Or.inr rfl))
      have hlt := (hkey hx).1 hle
      by_cases htr : x ∈ s.tracer
      · exact Or.inl ⟨Nat.ne_of_gt hlt, htr, le_of_lt hlt⟩
      · rcases h with h | h
        · exact absurd h htr
        · exact Or.inr ⟨h, htr⟩
  · intro _
    show Nat.nth IsHamming s.cntr = Nat.nth IsHamming (s.cntr + 1 - 1)
    rw [Nat.add_sub_cancel]

theorem naiveInv_init (r : Nat) : NaiveInv (naiveInit r) := by
  refine ⟨by simp [naiveInit], ?_, ?_, ?_⟩
  · intro x
    simp [naiveInit]
  · intro x
    simp only [naiveInit, List.mem_singleton, nth_zero_eq_one]
    constructor
    · rintro rfl; exact ⟨rfl, le_refl _⟩
    · exact fun h => h.1
  · intro h
    simp [naiveInit] at h

/-- The loop of `Solve_Naive` ends after `target - cntr` iterations with `cntr = target` and the
invariant, provided `red` leaves the products of the Hamming numbers of index below
`target` unchanged. -/
theorem naiveLoop_inv (red : Nat → Nat) (target : Nat) (hT : target < W)
    (hred : ∀ k, k < target → ∀ c, c = 2 ∨ c = 3 ∨ c = 5 →
      red (c * Nat.nth IsHamming k) = c * Nat.nth IsHamming k) :
    ∀ fuel s, NaiveInv s → s.cntr ≤ target → target ≤ s.cntr + fuel →
      ∃ s', naiveLoop red target fuel s = some s' ∧ NaiveInv s' ∧ s'.cntr = target ∧
        (s.cntr = target → s' = s) := by
  intro fuel
  induction fuel with
  | zero =>
    intro s hI hle hge
    refine ⟨s, ?_, hI, by omega, fun _ => rfl⟩
    unfold naiveLoop
    rw [if_neg (by omega)]
  | succ fuel ih =>
    intro s hI hle hge
    unfold naiveLoop
    by_cases hc : s.cntr < target
    · rw [if_pos hc]
      obtain ⟨s1, h1, hI1, hc1, -, -⟩ := naiveStep_inv red s hI (by omega) (hred s.cntr hc)
      rw [h1, Option.some_bind]
      obtain ⟨s', h', hI', hc', -⟩ := ih s1 hI1 (by omega) (by omega)
      exact ⟨s', h', hI', hc', fun h => by omega⟩
    · rw [if_neg hc]
      exact ⟨s, rfl, hI, by omega, fun _ => rfl⟩

theorem wrap_mul_nth {k : Nat} (hk : k < 10000) (c : Nat) (hc : c = 2 ∨ c = 3 ∨ c = 5) :
    wrap (c * Nat.nth IsHamming k) = c * Nat.nth IsHamming k := by
  apply wrap_of_lt
  have := five_mul_nth_lt hk
  rcases hc with rfl | rfl | rfl <;> omega

/-- For a target of at most 10000 the loop of `Solve_Naive`, in `_intType` arithmetic, ends with `cntr = target`;
`_resultInt` is then the Hamming number of index `target - 1`, or is untouched when
`target = 0`. -/
theorem naiveLoop_result (target : Nat) (hT : target ≤ 10000) (r : Nat) :
    ∃ s, naiveLoop wrap target target (naiveInit r) = some s ∧ NaiveInv s ∧
      s.cntr = target ∧ (target = 0 → s.resultInt = r) ∧
      (0 < target → s.resultInt = Nat.nth IsHamming (target - 1)) := by
  obtain ⟨s, hs, hI, hc, h0⟩ := naiveLoop_inv wrap target
    (lt_of_le_of_lt hT (by decide))
    (fun k hk c hc => wrap_mul_nth (by omega) c hc) target (naiveInit r) (naiveInv_init r)
    (Nat.zero_le _) (by simp [naiveInit])
  refine ⟨s, hs, hI, hc, ?_, ?_⟩
  · intro ht
    rw [h0 (by rw [ht]; rfl)]
    rfl
  · intro ht
    rw [← hc]
    exact hI.res (by omega)

theorem naiveStep_congr (red red' : Nat → Nat) (s : NaiveState)
    (h : ∀ m, pqTop s.pq = some m → ∀ c, c = 2 ∨ c = 3 ∨ c = 5 → red (c * m) = red' (c * m)) :
    naiveStep red s = naiveStep red' s := by
  unfold naiveStep
  cases htop : pqTop s.pq with
  | none => rfl
  | some m =>
    have e2 := h m htop 2 (Or.inl rfl)
    have e3 := h m htop 3 (Or.inr (Or.inl rfl))
    have e5 := h m htop 5 (Or.inr (Or.inr rfl))
    simp only [multipliers, List.foldl_cons, List.foldl_nil, naivePush, e2, e3, e5]

/-- For a target of at most 10000 the loop of `Solve_Naive` is the same in `_intType` arithmetic and
over the unbounded integers. -/
theorem naiveLoop_wrap_eq (target : Nat) (hT : target ≤ 10000) :
    ∀ fuel s, NaiveInv s → s.cntr ≤ target →
      naiveLoop wrap target fuel s = naiveLoop id target fuel s := by
  intro fuel
  induction fuel with
  | zero => intro s _ _; rfl
  | succ fuel ih =>
    intro s hI hle
    unfold naiveLoop
    by_cases hc : s.cntr < target
    · rw [if_pos hc, if_pos hc]
      have hW : s.cntr + 1 < W := by
        have : s.cntr + 1 < 18446744073709551616 := by omega
        exact this
      obtain ⟨s1, h1, hI1, hc1, -, htop⟩ := naiveStep_inv wrap s hI hW
        (fun c hc' => wrap_mul_nth (by omega) c hc')
      have hcongr : naiveStep wrap s = naiveStep id s := by
        apply naiveStep_congr
        intro m hm c hc'
        rw [htop] at hm
        have hm' := Option.some.inj hm
        subst hm'
        exact wrap_mul_nth (by omega) c hc'
      rw [← hcongr, h1, Option.some_bind, Option.some_bind]
      exact ih s1 hI1 (by omega)
    · rw [if_neg hc, if_neg hc]

/-! ## The loops, iteration by iteration -/

theorem neatIter_bounds (less : HammingNumber → HammingNumber → Bool) (N : Nat)
    (hT : N + 1 < W) :
    ∀ k, k ≤ N → ∃ s, neatIter less N k = some s ∧ NeatBounds s ∧ s.res.length = k + 1 := by
  intro k
  induction k with
  | zero => intro _; exact ⟨neatInit, rfl, neatBounds_init, rfl⟩
  | succ k ih =>
    intro hk
    obtain ⟨s, hs, hB, hlen⟩ := ih (by omega)
    obtain ⟨u2, u3, u5, -, -, -, he⟩ := neatStep_spec less s hB (by omega)
    obtain ⟨hB', hlen'⟩ := neatStep_bounds less s _ hB (by omega) he
    refine ⟨_, ?_, hB', by omega⟩
    show (neatIter less N k).bind _ = _
    rw [hs, Option.some_bind, wrap_of_lt hT, if_pos (by omega), he]

theorem neatIter_succ (less : HammingNumber → HammingNumber → Bool) (N k : Nat)
    (hT : N + 1 < W) (hk : k < N) (s : NeatState) (hs : neatIter less N k = some s)
    (hlen : s.res.length = k + 1) :
    neatIter less N (k + 1) = neatStep less s := by
  show (neatIter less N k).bind _ = _
  rw [hs, Option.some_bind, wrap_of_lt hT, if_pos (by omega)]

/-- The loop of `Solve_Neat_Hamming` ends in the state reached after `N` iterations. -/
theorem neatLoop_eq_iter (less : HammingNumber → HammingNumber → Bool) (N : Nat)
    (hT : N + 1 < W) :
    ∀ j k s, k + j = N → neatIter less N k = some s → NeatBounds s →
      s.res.length = k + 1 → neatLoop less N j s = neatIter less N N := by
  intro j
  induction j with
  | zero =>
    intro k s hk hs _ hlen
    have : k = N := by omega
    subst this
    unfold neatLoop
    rw [wrap_of_lt hT, if_neg (by omega), hs]
  | succ j ih =>
    intro k s hk hs hB hlen
    unfold neatLoop
    rw [wrap_of_lt hT, if_pos (by omega)]
    obtain ⟨u2, u3, u5, -, -, -, he⟩ := neatStep_spec less s hB (by omega)
    obtain ⟨hB', hlen'⟩ := neatStep_bounds less s _ hB (by omega) he
    have hnext := neatIter_succ less N k hT (by omega) s hs hlen
    rw [he] at hnext
    rw [he, Option.some_bind]
    exact ih (k + 1) _ (by omega) hnext hB' (by omega)

theorem neatLoop_final (less : HammingNumber → HammingNumber → Bool) (N : Nat)
    (hT : N + 1 < W) : neatLoop less N N neatInit = neatIter less N N :=
  neatLoop_eq_iter less N hT N 0 neatInit (by omega) rfl neatBounds_init rfl

/-- Under the exact comparison the state after `k + 1` iterations of `Solve_Neat_Hamming` is
described by `NeatExact` with last index `k`. -/
theorem neatIter_exact (N : Nat) (hT : N + 1 < W) :
    ∀ k, k + 1 ≤ N → ∃ s P Q R, neatIter HammingNumber.lt N (k + 1) = some s ∧
      NeatExact s k P Q R ∧ NeatBounds s := by
  intro k
  induction k with
  | zero =>
    intro hk
    have h1 := neatIter_succ HammingNumber.lt N 0 hT (by omega) neatInit rfl rfl
    rw [neatStep_init] at h1
    obtain ⟨hB, -⟩ := neatStep_bounds HammingNumber.lt neatInit _ neatBounds_init
      (by simp [neatInit]; omega) neatStep_init
    exact ⟨_, 0, 0, 0, h1, neatExact_first, hB⟩
  | succ k ih =>
    intro hk
    obtain ⟨s, P, Q, R, hs, hE, hB⟩ := ih (by omega)
    have hlen := hE.len
    obtain ⟨u2, u3, u5, -, -, -, he⟩ := neatStep_spec HammingNumber.lt s hB (by omega)
    obtain ⟨hB', -⟩ := neatStep_bounds HammingNumber.lt s _ hB (by omega) he
    obtain ⟨P', Q', R', hE'⟩ := neatStep_exact s _ k P Q R hE hB (by omega) he
    have hnext := neatIter_succ HammingNumber.lt N (k + 1) hT (by omega) s hs (by omega)
    rw [he] at hnext
    exact ⟨_, P', Q', R', hnext, hE', hB'⟩

/-- One iteration of `Solve_Neater_Hamming` keeps `offset` equal to the least of the three pointers:
each pointer advances by at most one, and one element is evicted exactly when the least
pointer has advanced. -/
theorem neaterStep_min (less : HammingNumber → HammingNumber → Bool) (d d' : NeatState)
    (w w' : NeaterState) (hS : Sim d w) (hB : NeatBounds d) (hW : d.res.length + 1 < W)
    (hm : w.offset = min d.p (min d.q d.r))
    (hd : neatStep less d = some d') (hw : neaterStep less w = some w') :
    w'.offset = min d'.p (min d'.q d'.r) ∧ d.p ≤ d'.p ∧ d.q ≤ d'.q ∧ d.r ≤ d'.r ∧
      d'.p ≤ d.p + 1 ∧ d'.q ≤ d.q + 1 ∧ d'.r ≤ d.r + 1 ∧
      w.offset ≤ w'.offset ∧ w'.offset ≤ w.offset + 1 := by
  obtain ⟨u2, u3, u5, h2, h3, h5, he⟩ := neatStep_spec less d hB hW
  rw [he] at hd
  have hd' := (Option.some.inj hd).symm
  subst hd'
  have hp := hB.hp
  have hq := hB.hq
  have hr := hB.hr
  have hop := hS.op
  have hoq := hS.oq
  have hor := hS.or
  have w2 : wrap (d.p + 1) = d.p + 1 := wrap_of_lt (by omega)
  have w3 : wrap (d.q + 1) = d.q + 1 := wrap_of_lt (by omega)
  have w5 : wrap (d.r + 1) = d.r + 1 := wrap_of_lt (by omega)
  have hres : w.res ++ [neatNext less d] = (d.res ++ [neatNext less d]).drop w.offset := by
    rw [hS.res, List.drop_append_of_le_length (by omega)]
  have r2 : (w.res ++ [neatNext less d])[wsub (wrap (d.p + 1)) w.offset]? = some u2 := by
    rw [hres, w2, read_window _ _ _ (by omega) (by omega)]; exact h2
  have r3 : (w.res ++ [neatNext less d])[wsub (wrap (d.q + 1)) w.offset]? = some u3 := by
    rw [hres, w3, read_window _ _ _ (by omega) (by omega)]; exact h3
  have r5 : (w.res ++ [neatNext less d])[wsub (wrap (d.r + 1)) w.offset]? = some u5 := by
    rw [hres, w5, read_window _ _ _ (by omega) (by omega)]; exact h5
  have hn : neaterNext less w = neatNext less d := by
    unfold neaterNext neatNext
    rw [hS.next2, hS.next3, hS.next5]
  have wo : wrap (w.offset + 1) = w.offset + 1 := wrap_of_lt (by omega)
  unfold neaterStep at hw
  dsimp only at hw
  rw [hn, hS.p, hS.q, hS.r, hS.next2, hS.next3, hS.next5] at hw
  rw [advance_spec _ _ _ _ _ u2 r2, advance_spec _ _ _ _ _ u3 r3,
    advance_spec _ _ _ _ _ u5 r5] at hw
  simp only [Option.some_bind, w2, w3, w5, wo, apply_ite Prod.fst, apply_ite Prod.snd] at hw
  split_ifs at hw
  all_goals
    have hw' := (Option.some.inj hw).symm
    subst hw'
    dsimp only
    split_ifs
    omega

theorem neaterIter_succ (less : HammingNumber → HammingNumber → Bool) (N k : Nat)
    (hT : N + 1 < W) (hk : k < N) (d : NeatState) (w : NeaterState)
    (hw : neaterIter less N k = some w) (hS : Sim d w) (hB : NeatBounds d)
    (hlen : d.res.length = k + 1) :
    neaterIter less N (k + 1) = neaterStep less w := by
  show (neaterIter less N k).bind _ = _
  rw [hw, Option.some_bind,
    if_pos ((sim_cond N d w hS hB (by omega) hT).2 (by rw [wrap_of_lt hT]; omega))]

/-- After `k ≤ N` iterations the windowed state stands for the dense state, and `offset` is
the least of the three pointers. -/
theorem neaterIter_sim (less : HammingNumber → HammingNumber → Bool) (N : Nat)
    (hT : N + 1 < W) :
    ∀ k, k ≤ N → ∃ d w, neatIter less N k = some d ∧ neaterIter less N k = some w ∧
      Sim d w ∧ NeatBounds d ∧ d.res.length = k + 1 ∧
      w.offset = min d.p (min d.q d.r) := by
  intro k
  induction k with
  | zero =>
    intro _
    exact ⟨neatInit, neaterInit, rfl, rfl, sim_init, neatBounds_init, rfl, rfl⟩
  | succ k ih =>
    intro hk
    obtain ⟨d, w, hd, hw, hS, hB, hlen, hm⟩ := ih (by omega)
    obtain ⟨u2, u3, u5, -, -, -, he⟩ := neatStep_spec less d hB (by omega)
    obtain ⟨hB', hlen'⟩ := neatStep_bounds less d _ hB (by omega) he
    obtain ⟨w', hw', hS'⟩ := neaterStep_sim less d _ w hS hB (by omega) he
    obtain ⟨hm', -⟩ := neaterStep_min less d _ w w' hS hB (by omega) hm he hw'
    have hnd := neatIter_succ less N k hT (by omega) d hd hlen
    have hnw := neaterIter_succ less N k hT (by omega) d w hw hS hB hlen
    rw [he] at hnd
    rw [hw'] at hnw
    exact ⟨_, w', hnd, hnw, hS', hB', by omega, hm'⟩

/-- The loop of `Solve_Neater_Hamming` ends in the state reached after `N` iterations. -/
theorem neaterLoop_eq_iter (less : HammingNumber → HammingNumber → Bool) (N : Nat)
    (hT : N + 1 < W) :
    ∀ j k d w, k + j = N → neaterIter less N k = some w → Sim d w → NeatBounds d →
      d.res.length = k + 1 → neaterLoop less N j w = neaterIter less N N := by
  intro j
  induction j with
  | zero =>
    intro k d w hk hw hS hB hlen
    have : k = N := by omega
    subst this
    unfold neaterLoop
    rw [if_neg (fun h => by
      have := (sim_cond k d w hS hB (by omega) hT).1 h
      rw [wrap_of_lt hT] at this; omega), hw]
  | succ j ih =>
    intro k d w hk hw hS hB hlen
    unfold neaterLoop
    rw [if_pos ((sim_cond N d w hS hB (by omega) hT).2 (by rw [wrap_of_lt hT]; omega))]
    obtain ⟨u2, u3, u5, -, -, -, he⟩ := neatStep_spec less d hB (by omega)
    obtain ⟨hB', hlen'⟩ := neatStep_bounds less d _ hB (by omega) he
    obtain ⟨w', hw', hS'⟩ := neaterStep_sim less d _ w hS hB (by omega) he
    have hnw := neaterIter_succ less N k hT (by omega) d w hw hS hB hlen
    rw [hw'] at hnw
    rw [hw', Option.some_bind]
    exact ih (k + 1) _ w' (by omega) hnw hS' hB' (by omega)

theorem neaterLoop_final (less : HammingNumber → HammingNumber → Bool) (N : Nat)
    (hT : N + 1 < W) : neaterLoop less N N neaterInit = neaterIter less N N :=
  neaterLoop_eq_iter less N hT N 0 neatInit neaterInit (by omega) rfl sim_init
    neatBounds_init rfl

theorem naivePush_tracer_nodup (red : Nat → Nat) (m : Nat) (st : List Nat × List Nat)
    (it : Nat) (hn : st.2.Nodup) : (naivePush red m st it).2.Nodup := by
  unfold naivePush
  dsimp only
  split
  · exact hn
  · rename_i h
    exact List.nodup_cons.2 ⟨h, hn⟩

/-- One iteration of `Solve_Naive` never inserts into `_tracer` a value it already holds. -/
theorem naiveStep_tracer_nodup (red : Nat → Nat) (s s' : NaiveState)
    (hn : s.tracer.Nodup) (hs : naiveStep red s = some s') : s'.tracer.Nodup := by
  unfold naiveStep at hs
  cases htop : pqTop s.pq with
  | none => rw [htop] at hs; simp at hs
  | some m =>
    rw [htop] at hs
    have hs' := (Option.some.inj hs).symm
    subst hs'
    simp only [multipliers, List.foldl_cons, List.foldl_nil]
    exact naivePush_tracer_nodup _ _ _ _
      (naivePush_tracer_nodup _ _ _ _ (naivePush_tracer_nodup _ _ _ _ hn))

/-- For a target of at most 10000, the state of `Solve_Naive` after `k ≤ N` iterations exists, satisfies
the invariant, has `cntr = k` and a duplicate-free `_tracer`. -/
theorem naiveIter_inv (N : Nat) (hN : N ≤ 10000) (r : Nat) :
    ∀ k, k ≤ N → ∃ s, naiveIter wrap N r k = some s ∧ NaiveInv s ∧ s.cntr = k ∧
      s.tracer.Nodup := by
  intro k
  induction k with
  | zero =>
    intro _
    exact ⟨naiveInit r, rfl, naiveInv_init r, rfl, by simp [naiveInit]⟩
  | succ k ih =>
    intro hk
    obtain ⟨s, hs, hI, hc, hn⟩ := ih (by omega)
    have hW : s.cntr + 1 < W := by
      have : s.cntr + 1 < 18446744073709551616 := by omega
      exact this
    obtain ⟨s', hs', hI', hc', -, -⟩ := naiveStep_inv wrap s hI hW
      (fun c hc0 => wrap_mul_nth (by omega) c hc0)
    refine ⟨s', ?_, hI', by omega, naiveStep_tracer_nodup wrap s s' hn hs'⟩
    show (naiveIter wrap N r k).bind _ = _
    rw [hs, Option.some_bind, if_pos (by omega), hs']

/-- The loop of `Solve_Naive` ends in the state reached after `N` iterations. -/
theorem naiveLoop_eq_iter (N : Nat) (hN : N ≤ 10000) (r : Nat) :
    ∀ j k s, k + j = N → naiveIter wrap N r k = some s → NaiveInv s → s.cntr = k →
      naiveLoop wrap N j s = naiveIter wrap N r N := by
  intro j
  induction j with
  | zero =>
    intro k s hk hs _ hc
    have : k = N := by omega
    subst this
    unfold naiveLoop
    rw [if_neg (by omega), hs]
  | succ j ih =>
    intro k s hk hs hI hc
    unfold naiveLoop
    rw [if_pos (by omega)]
    have hW : s.cntr + 1 < W := by
      have : s.cntr + 1 < 18446744073709551616 := by omega
      exact this
    obtain ⟨s', hs', hI', hc', -, -⟩ := naiveStep_inv wrap s hI hW
      (fun c hc0 => wrap_mul_nth (by omega) c hc0)
    have hnext : naiveIter wrap N r (k + 1) = some s' := by
      show (naiveIter wrap N r k).bind _ = _
      rw [hs, Option.some_bind, if_pos (by omega), hs']
    rw [hs', Option.some_bind]
    exact ih (k + 1) s' (by omega) hnext hI' (by omega)

theorem naiveLoop_final (N : Nat) (hN : N ≤ 10000) (r : Nat) :
    naiveLoop wrap N N (naiveInit r) = naiveIter wrap N r N :=
  naiveLoop_eq_iter N hN r N 0 (naiveInit r) (by omega) rfl (naiveInv_init r) rfl

/-! ## Double precision -/

/-- The three constants are the binary64 values nearest to the decimal literals of the
source: each differs from its literal by less than half of its last binary place. -/
theorem ln_constants_nearest :
    (2 * 100000000000000000000 * ln2 < 2 * 69314718055994530941 * 2 ^ 53 + 100000000000000000000 ∧
      2 * 69314718055994530941 * 2 ^ 53 < 2 * 100000000000000000000 * ln2 + 100000000000000000000) ∧
    (ln3 % 2 = 0 ∧
      100000000000000000000 * ln3 < 109861228866810969139 * 2 ^ 53 + 100000000000000000000 ∧
      109861228866810969139 * 2 ^ 53 < 100000000000000000000 * ln3 + 100000000000000000000) ∧
    (ln5 % 2 = 0 ∧
      100000000000000000000 * ln5 < 160943791243410037460 * 2 ^ 53 + 100000000000000000000 ∧
      160943791243410037460 * 2 ^ 53 < 100000000000000000000 * ln5 + 100000000000000000000) := by
  decide

theorem roundAt_err (s n : Nat) :
    2 * roundAt s n ≤ 2 * n + 2 ^ s ∧ 2 * n ≤ 2 * roundAt s n + 2 ^ s := by
  have hd : 0 < 2 ^ s := by positivity
  have h1 := Nat.div_add_mod n (2 ^ s)
  have h2 := Nat.mod_lt n hd
  have h3 : (n / 2 ^ s + 1) * 2 ^ s = 2 ^ s * (n / 2 ^ s) + 2 ^ s := by ring
  have h4 : n / 2 ^ s * 2 ^ s = 2 ^ s * (n / 2 ^ s) := by ring
  unfold roundAt
  dsimp only
  rw [h3, h4]
  split_ifs <;> omega

theorem shift53_le (n t : Nat) (h : n / 2 ^ t < 2 ^ 53) :
    ∀ fuel s, s ≤ t → shift53 fuel n s ≤ t := by
  intro fuel
  induction fuel with
  | zero => intro s hs; exact hs
  | succ fuel ih =>
    intro s hs
    unfold shift53
    split_ifs with hc
    · exact hs
    · apply ih
      rcases Nat.lt_or_ge s t with hlt | hge
      · exact hlt
      · exfalso
        apply hc
        have : s = t := by omega
        rw [this]; exact h

theorem shift53_inv (n : Nat) : ∀ fuel s, n / 2 ^ (s + fuel) < 2 ^ 53 →
    (s = 0 ∨ 2 ^ 53 ≤ n / 2 ^ (s - 1)) →
    n / 2 ^ shift53 fuel n s < 2 ^ 53 ∧
      (shift53 fuel n s = 0 ∨ 2 ^ 53 ≤ n / 2 ^ (shift53 fuel n s - 1)) := by
  intro fuel
  induction fuel with
  | zero => intro s h1 h2; exact ⟨h1, h2⟩
  | succ fuel ih =>
    intro s h1 h2
    unfold shift53
    split_ifs with hc
    · exact ⟨hc, h2⟩
    · apply ih (s + 1)
      · rw [show s + 1 + fuel = s + (fuel + 1) by omega]; exact h1
      · right
        rw [Nat.add_sub_cancel]
        exact not_lt.1 hc

/-- The shift that `rnd53` uses leaves at most 53 significant bits, and is the least such:
the rounding is to 53 significant bits exactly. -/
theorem shift53_spec (n : Nat) : n / 2 ^ shift53 n n 0 < 2 ^ 53 ∧
    (shift53 n n 0 = 0 ∨ 2 ^ 53 ≤ n / 2 ^ (shift53 n n 0 - 1)) := by
  apply shift53_inv n n 0 _ (Or.inl rfl)
  rw [Nat.zero_add, Nat.div_eq_of_lt (Nat.lt_two_pow n)]
  positivity

theorem rnd53_of_lt {n : Nat} (h : n < 2 ^ 53) : rnd53 n = n := by
  have hs : shift53 n n 0 = 0 := by
    have := shift53_le n 0 (by simpa using h) n 0 (le_refl _)
    omega
  unfold rnd53
  rw [hs]
  unfold roundAt
  simp [Nat.mod_one]

/-- Below `2 ^ 59` units (the value 64) a rounding moves a value by at most 32 units. -/
theorem rnd53_err {n : Nat} (h : n < 2 ^ 59) : rnd53 n ≤ n + 32 ∧ n ≤ rnd53 n + 32 := by
  have hs : shift53 n n 0 ≤ 6 := by
    apply shift53_le n 6 _ n 0 (by omega)
    rw [Nat.div_lt_iff_lt_mul (by positivity)]
    calc n < 2 ^ 59 := h
      _ = 2 ^ 53 * 2 ^ 6 := by norm_num
  have hp : 2 ^ shift53 n n 0 ≤ 2 ^ 6 := Nat.pow_le_pow_right (by decide) hs
  obtain ⟨h1, h2⟩ := roundAt_err (shift53 n n 0) n
  unfold rnd53
  constructor <;> omega

theorem allBelow_spec (f : Nat → Bool) : ∀ n, allBelow f n = true → ∀ i, i < n → f i = true := by
  intro n
  induction n with
  | zero => intro _ i hi; omega
  | succ n ih =>
    intro h i hi
    unfold allBelow at h
    rw [Bool.and_eq_true] at h
    rcases Nat.lt_or_ge i n with hlt | hge
    · exact ih h.2 i hlt
    · have : i = n := by omega
      rw [this]; exact h.1

set_option maxRecDepth 100000 in
theorem gapAll_true : gapAll = true := by decide!

theorem zpow_toNat_div (k : ℚ) (x : Int) :
    k ^ x = k ^ x.toNat / k ^ (-x).toNat := by
  rcases le_total 0 x with h | h
  · obtain ⟨n, rfl⟩ := Int.eq_ofNat_of_zero_le h
    simp
  · obtain ⟨n, rfl⟩ := Int.exists_eq_neg_ofNat h
    simp [zpow_neg]

theorem gapOk_of_mem {b c : Int} (hb1 : -40 ≤ b) (hb2 : b ≤ 40) (hc1 : -27 ≤ c) (hc2 : c ≤ 27) :
    gapOk b c = true := by
  have h := gapAll_true
  unfold gapAll at h
  have h1 := allBelow_spec _ _ h (b + 40).toNat (by omega)
  have h2 := allBelow_spec _ _ h1 (c + 27).toNat (by omega)
  have eb : (((b + 40).toNat : Nat) : Int) - 40 = b := by omega
  have ec : (((c + 27).toNat : Nat) : Int) - 27 = c := by omega
  rw [eb, ec] at h2
  exact h2

/-- If `2 ^ a * 3 ^ b * 5 ^ c > 1` with `b` and `c` in the checked box, the unrounded sum
for `(a, b, c)` exceeds 320 units. -/
theorem gap_sound {a b c : Int} (hb1 : -40 ≤ b) (hb2 : b ≤ 40) (hc1 : -27 ≤ c) (hc2 : c ≤ 27)
    (h : (1 : ℚ) < 2 ^ a * 3 ^ b * 5 ^ c) :
    320 < (ln2 : Int) * a + (ln3 : Int) * b + (ln5 : Int) * c := by
  have hok := gapOk_of_mem hb1 hb2 hc1 hc2
  unfold gapOk at hok
  rw [Bool.and_eq_true, decide_eq_true_eq, decide_eq_true_eq] at hok
  obtain ⟨hle, hgt⟩ := hok
  have hT : gapGuess b c ≤ a := by
    by_contra hcon
    have ha : a ≤ gapGuess b c - 1 := by omega
    have hpow : (2 : ℚ) ^ a ≤ 2 ^ (gapGuess b c - 1) := zpow_le_zpow_right₀ (by norm_num) ha
    have h3 : (0 : ℚ) < 3 ^ b := by positivity
    have h5 : (0 : ℚ) < 5 ^ c := by positivity
    have hprod : (2 : ℚ) ^ a * 3 ^ b * 5 ^ c ≤ 2 ^ (gapGuess b c - 1) * 3 ^ b * 5 ^ c := by
      gcongr
    have hq : (2 : ℚ) ^ (gapGuess b c - 1) * 3 ^ b * 5 ^ c ≤ 1 := by
      rw [zpow_toNat_div 2 (gapGuess b c - 1), zpow_toNat_div 3 b,
        zpow_toNat_div 5 c]
      have e : (-(gapGuess b c - 1)) = 1 - gapGuess b c := by ring
      rw [e]
      have hden : (0 : ℚ) < 2 ^ (1 - gapGuess b c).toNat * 3 ^ (-b).toNat * 5 ^ (-c).toNat := by
        positivity
      have hcast : ((2 ^ (gapGuess b c - 1).toNat * 3 ^ b.toNat * 5 ^ c.toNat : Nat) : ℚ) ≤
          ((2 ^ (1 - gapGuess b c).toNat * 3 ^ (-b).toNat * 5 ^ (-c).toNat : Nat) : ℚ) := by
        exact_mod_cast hle
      push_cast at hcast
      rw [div_mul_div_comm, div_mul_div_comm, div_le_one hden]
      exact hcast
    linarith
  have hln : (0 : Int) ≤ (ln2 : Int) := by positivity
  have := Int.mul_le_mul_of_nonneg_left hT hln
  linarith

theorem value_box {u : HammingNumber} (h : u.value < 2 ^ 64) :
    u.p ≤ 63 ∧ u.q ≤ 40 ∧ u.r ≤ 27 := by
  unfold value at h
  have h2 : 0 < 2 ^ u.p := by positivity
  have h3 : 0 < 3 ^ u.q := by positivity
  have h5 : 0 < 5 ^ u.r := by positivity
  refine ⟨?_, ?_, ?_⟩
  · by_contra hc
    have : 2 ^ 64 ≤ 2 ^ u.p := Nat.pow_le_pow_right (by decide) (by omega)
    have : 2 ^ u.p * 1 * 1 ≤ 2 ^ u.p * 3 ^ u.q * 5 ^ u.r := by gcongr <;> omega
    omega
  · by_contra hc
    have : 3 ^ 41 ≤ 3 ^ u.q := Nat.pow_le_pow_right (by decide) (by omega)
    have : 1 * 3 ^ u.q * 1 ≤ 2 ^ u.p * 3 ^ u.q * 5 ^ u.r := by gcongr <;> omega
    have : 2 ^ 64 < 3 ^ 41 := by norm_num
    omega
  · by_contra hc
    have : 5 ^ 28 ≤ 5 ^ u.r := Nat.pow_le_pow_right (by decide) (by omega)
    have : 1 * 1 * 5 ^ u.r ≤ 2 ^ u.p * 3 ^ u.q * 5 ^ u.r := by gcongr <;> omega
    have : 2 ^ 64 < 5 ^ 28 := by norm_num
    omega

/-- Two triples with exponents of 3 and 5 in the box: a smaller magnitude has an unrounded
sum smaller by more than 320 units. -/
theorem exactSum_gap {l r : HammingNumber} (hlq : l.q ≤ 40) (hlr : l.r ≤ 27)
    (hrq : r.q ≤ 40) (hrr : r.r ≤ 27) (h : l.value < r.value) :
    exactSum l + 320 < exactSum r := by
  have hq : (1 : ℚ) < 2 ^ ((r.p : Int) - l.p) * 3 ^ ((r.q : Int) - l.q) * 5 ^ ((r.r : Int) - l.r) := by
    rw [zpow_sub₀ (by norm_num), zpow_sub₀ (by norm_num), zpow_sub₀ (by norm_num)]
    simp only [zpow_natCast]
    rw [div_mul_div_comm, div_mul_div_comm, one_lt_div (by positivity)]
    have : ((l.value : Nat) : ℚ) < ((r.value : Nat) : ℚ) := by exact_mod_cast h
    unfold value at this
    push_cast at this
    exact this
  have hg := gap_sound (a := (r.p : Int) - l.p) (b := (r.q : Int) - l.q) (c := (r.r : Int) - l.r)
    (by omega) (by omega) (by omega) (by omega) hq
  unfold exactSum
  zify
  rw [mul_sub, mul_sub, mul_sub] at hg
  linarith

theorem exactSum_lt {u : HammingNumber} (h : u.value < 2 ^ 64) :
    exactSum u + 320 < 64 * ln2 := by
  obtain ⟨_, hq, hr⟩ := value_box h
  have := exactSum_gap (l := u) (r := ⟨64, 0, 0⟩) hq hr (by decide) (by decide)
    (by simpa [value] using h)
  simpa [exactSum, Nat.mul_comm] using this

/-- Below `2 ^ 64` the computed logarithm differs from the unrounded sum by at most 160
units. -/
theorem log_err {u : HammingNumber} (h : u.value < 2 ^ 64) :
    u.log ≤ exactSum u + 160 ∧ exactSum u ≤ u.log + 160 := by
  obtain ⟨hp, hq, hr⟩ := value_box h
  have hs := exactSum_lt h
  unfold exactSum at hs ⊢
  have hl2 : 64 * ln2 < 2 ^ 59 - 1000 := by decide
  unfold HammingNumber.log
  rw [rnd53_of_lt (n := u.p) (by omega), rnd53_of_lt (n := u.q) (by omega),
    rnd53_of_lt (n := u.r) (by omega)]
  generalize ln2 * u.p = A at *
  generalize ln3 * u.q = B at *
  generalize ln5 * u.r = C at *
  obtain ⟨a1, a2⟩ := rnd53_err (n := A) (by omega)
  obtain ⟨b1, b2⟩ := rnd53_err (n := B) (by omega)
  obtain ⟨c1, c2⟩ := rnd53_err (n := C) (by omega)
  obtain ⟨d1, d2⟩ := rnd53_err (n := rnd53 A + rnd53 B) (by omega)
  obtain ⟨e1, e2⟩ := rnd53_err (n := rnd53 (rnd53 A + rnd53 B) + rnd53 C) (by omega)
  constructor <;> omega

theorem ltDouble_iff {l r : HammingNumber} (hl : l.value < 2 ^ 64) (hr : r.value < 2 ^ 64) :
    l.ltDouble r = true ↔ l.value < r.value := by
  obtain ⟨_, hlq, hlr⟩ := value_box hl
  obtain ⟨_, hrq, hrr⟩ := value_box hr
  obtain ⟨l1, l2⟩ := log_err hl
  obtain ⟨r1, r2⟩ := log_err hr
  unfold HammingNumber.ltDouble
  rw [decide_eq_true_eq]
  constructor
  · intro h
    by_contra hc
    rcases Nat.lt_or_ge r.value l.value with h1 | h1
    · have := exactSum_gap hrq hrr hlq hlr h1
      omega
    · have : l = r := value_injective (by omega)
      rw [this] at h
      omega
  · intro h
    have := exactSum_gap hlq hlr hrq hrr h
    omega

theorem log_injOn {l r : HammingNumber} (hl : l.value < 2 ^ 64) (hr : r.value < 2 ^ 64)
    (h : l.log = r.log) : l = r := by
  apply value_injective
  by_contra hc
  rcases Nat.lt_or_ge l.value r.value with h1 | h1
  · have := (ltDouble_iff hl hr).2 h1
    unfold HammingNumber.ltDouble at this
    rw [decide_eq_true_eq] at this
    omega
  · have h2 : r.value < l.value := by omega
    have := (ltDouble_iff hr hl).2 h2
    unfold HammingNumber.ltDouble at this
    rw [decide_eq_true_eq] at this
    omega

/-! ## `Solve_Neat_Hamming` under the double-precision comparison, targets up to 10000 -/

theorem ltDouble_eq_lt {l r : HammingNumber} (hl : l.value < 2 ^ 64) (hr : r.value < 2 ^ 64) :
    l.ltDouble r = l.lt r := by
  rw [Bool.eq_iff_iff, ltDouble_iff hl hr, HammingNumber.lt_iff]

theorem hmin_double {a b : HammingNumber} (ha : a.value < 2 ^ 64) (hb : b.value < 2 ^ 64) :
    hmin HammingNumber.ltDouble a b = hmin HammingNumber.lt a b := by
  unfold hmin
  rw [ltDouble_eq_lt hb ha]

theorem neatNext_double (s : NeatState) (h2 : s.next2.value < 2 ^ 64)
    (h3 : s.next3.value < 2 ^ 64) (h5 : s.next5.value < 2 ^ 64) :
    neatNext HammingNumber.ltDouble s = neatNext HammingNumber.lt s := by
  unfold neatNext
  have h35 : (hmin HammingNumber.lt s.next3 s.next5).value < 2 ^ 64 := by
    rcases hmin_choice HammingNumber.lt s.next3 s.next5 with h | h <;> rw [h] <;> assumption
  rw [hmin_double h3 h5, hmin_double h2 h35]

theorem neatStep_congr (less less' : HammingNumber → HammingNumber → Bool) (s : NeatState)
    (h : neatNext less s = neatNext less' s) : neatStep less s = neatStep less' s := by
  unfold neatStep
  rw [h]

theorem NeatExact.pointer_le {s : NeatState} {n P Q R : Nat} (hE : NeatExact s n P Q R) :
    P ≤ n ∧ Q ≤ n ∧ R ≤ n := by
  have hpos := nth_pos n
  refine ⟨?_, ?_, ?_⟩
  · by_contra hc
    have := hE.l2 n (by omega)
    omega
  · by_contra hc
    have := hE.l3 n (by omega)
    omega
  · by_contra hc
    have := hE.l5 n (by omega)
    omega

/-- Up to the 10000th stored element every candidate of `Solve_Neat_Hamming` has a
magnitude below `2 ^ 64`. -/
theorem NeatExact.cand_lt {s : NeatState} {n P Q R : Nat} (hE : NeatExact s n P Q R)
    (hn : n < 10000) :
    s.next2.value < 2 ^ 64 ∧ s.next3.value < 2 ^ 64 ∧ s.next5.value < 2 ^ 64 := by
  obtain ⟨hP, hQ, hR⟩ := hE.pointer_le
  have b := nth_le_safeBound hn
  have bP := (nth_le_iff (k := P) (n := n)).2 hP
  have bQ := (nth_le_iff (k := Q) (n := n)).2 hQ
  have bR := (nth_le_iff (k := R) (n := n)).2 hR
  unfold safeBound at b
  rw [hE.v2, hE.v3, hE.v5]
  refine ⟨?_, ?_, ?_⟩ <;> omega

/-- For a target up to 10000 the loop of `Solve_Neat_Hamming` passes through the same
states under the double-precision comparison as under the exact comparison. -/
theorem neatIter_double (N : Nat) (hN : N ≤ 10000) :
    ∀ k, k ≤ N → neatIter HammingNumber.ltDouble N k = neatIter HammingNumber.lt N k := by
  have hT : N + 1 < W := by
    show N + 1 < 18446744073709551616
    omega
  intro k
  induction k with
  | zero => intro _; rfl
  | succ k ih =>
    intro hk
    have hk' := ih (by omega)
    show (neatIter HammingNumber.ltDouble N k).bind _ = (neatIter HammingNumber.lt N k).bind _
    rw [hk']
    rcases Nat.eq_zero_or_pos k with hz | hp
    · subst hz
      show (if _ then neatStep HammingNumber.ltDouble neatInit else none) =
        (if _ then neatStep HammingNumber.lt neatInit else none)
      rw [neatStep_congr HammingNumber.ltDouble HammingNumber.lt neatInit
        (neatNext_double neatInit (by decide) (by decide) (by decide))]
    · obtain ⟨j, rfl⟩ : ∃ j, k = j + 1 := ⟨k - 1, by omega⟩
      obtain ⟨s, P, Q, R, hs, hE, -⟩ := neatIter_exact N hT j (by omega)
      rw [hs]
      obtain ⟨h2, h3, h5⟩ := hE.cand_lt (by omega)
      show (if _ then neatStep HammingNumber.ltDouble s else none) =
        (if _ then neatStep HammingNumber.lt s else none)
      rw [neatStep_congr HammingNumber.ltDouble HammingNumber.lt s (neatNext_double s h2 h3 h5)]

theorem neatResult_double (N : Nat) (hN : N ≤ 10000) :
    neatResult HammingNumber.ltDouble N = neatResult HammingNumber.lt N := by
  have hT : N + 1 < W := by
    show N + 1 < 18446744073709551616
    omega
  unfold neatResult
  rw [neatLoop_final _ N hT, neatLoop_final _ N hT, neatIter_double N hN N (le_refl _)]

theorem solve_neat_double (N : Nat) (hN : N ≤ 10000) :
    HammingCalculator.Solve_Neat_Hamming HammingNumber.ltDouble (HammingCalculator.new N) =
      HammingCalculator.Solve_Neat_Hamming HammingNumber.lt (HammingCalculator.new N) := by
  unfold HammingCalculator.Solve_Neat_Hamming
  rw [show (HammingCalculator.new N)._targetNumber = N from rfl, neatResult_double N hN]

/-! ## The claims -/

open HammingCalculator

theorem solve_neat_eq (less : HammingNumber → HammingNumber → Bool) (c : HammingCalculator)
    (h : HammingNumber) (hr : neatResult less c._targetNumber = some h) :
    Solve_Neat_Hamming less c = some { c with _resultHamming := h } := by
  unfold Solve_Neat_Hamming
  rw [hr]; rfl

theorem solve_neater_eq (less : HammingNumber → HammingNumber → Bool) (c : HammingCalculator)
    (h : HammingNumber) (hr : neaterResult less c._targetNumber = some h) :
    Solve_Neater_Hamming less c = some { c with _resultHamming := h } := by
  unfold Solve_Neater_Hamming
  rw [hr]; rfl

/-- The final state of `Solve_Neat_Hamming` for a target `N ≥ 1` under the exact comparison. -/
theorem neat_final (N : Nat) (hN : 1 ≤ N) (hT : N + 1 < W) :
    ∃ s n P Q R, neatLoop HammingNumber.lt N N neatInit = some s ∧ NeatExact s n P Q R ∧
      NeatBounds s ∧ s.res.length = N + 1 := by
  obtain ⟨s, h, hs, hI, hB, hlen, -, -⟩ :=
    neatResult_inv HammingNumber.lt N NeatInv hT (Or.inl rfl) (neatStep_inv N hT)
  rcases hI with rfl | ⟨n, P, Q, R, hE⟩
  · simp [neatInit] at hlen; omega
  · exact ⟨s, n, P, Q, R, hs, hE, hB, hlen⟩

/-- C2: for every comparison and every target `N` with `N + 1` representable in `size_t`,
`Solve_Neat_Hamming` and `Solve_Neater_Hamming` both return and store the same exponent
triple in `_resultHamming`. -/
theorem neat_neater_same_result (less : HammingNumber → HammingNumber → Bool)
    (c : HammingCalculator) (hT : c._targetNumber + 1 < W) :
    ∃ h, Solve_Neat_Hamming less c = some { c with _resultHamming := h } ∧
      Solve_Neater_Hamming less c = some { c with _resultHamming := h } := by
  obtain ⟨h, h1, h2⟩ := neaterResult_eq less c._targetNumber hT
  exact ⟨h, solve_neat_eq less c h h1, solve_neater_eq less c h h2⟩

/-- C2 at target 1500 under the exact comparison. -/
theorem neat_neater_same_result_witness :
    (new 1500)._targetNumber + 1 < W ∧
    ∃ h, Solve_Neat_Hamming HammingNumber.lt (new 1500)
        = some { new 1500 with _resultHamming := h } ∧
      Solve_Neater_Hamming HammingNumber.lt (new 1500)
        = some { new 1500 with _resultHamming := h } :=
  ⟨by decide, neat_neater_same_result HammingNumber.lt (new 1500) (by decide)⟩

/-- C3: for every target `N ≤ naiveLimit`, the magnitude `2^p * 3^q * 5^r` of the triple stored
by `Solve_Neat_Hamming`, run with the double-precision `operator<` of the source, equals the
`_resultInt` left by `Solve_Naive`, run in 64-bit wrapping arithmetic, and neither call
fails. -/
theorem neat_value_eq_naive (N : Nat) (hN : N ≤ naiveLimit) :
    ∃ h o, Solve_Neat_Hamming HammingNumber.ltDouble (new N)
        = some { new N with _resultHamming := h } ∧
      Solve_Naive (new N) = some o ∧ o.refused = false ∧
      h.value = o.obj._resultInt := by
  unfold naiveLimit at hN
  rw [solve_neat_double N hN]
  obtain ⟨s, hs, -, -, h0, hpos⟩ := naiveLoop_result N hN 1
  have hnaive : Solve_Naive (new N) = some ⟨{ new N with _resultInt := s.resultInt }, false⟩ := by
    unfold Solve_Naive Solve_Naive_with
    rw [if_neg (by simp [new, naiveLimit]; omega)]
    show (naiveLoop wrap N N (naiveInit 1)).map _ = _
    rw [hs]; rfl
  rcases Nat.eq_zero_or_pos N with hz | hp
  · subst hz
    refine ⟨HammingNumber.one, _, solve_neat_eq _ (new 0) _ neatResult_zero, hnaive, rfl, ?_⟩
    show HammingNumber.one.value = s.resultInt
    rw [h0 rfl]; rfl
  · obtain ⟨M, rfl⟩ : ∃ M, N = M + 1 := ⟨N - 1, by omega⟩
    obtain ⟨h, hr, hv⟩ := neatResult_succ M (by
      have : M + 2 < 18446744073709551616 := by omega
      exact this)
    refine ⟨h, _, solve_neat_eq _ (new (M + 1)) h hr, hnaive, rfl, ?_⟩
    show h.value = s.resultInt
    rw [hv, hpos (by omega), Nat.add_sub_cancel]

/-- C3 at target 1500. -/
theorem neat_value_eq_naive_witness :
    1500 ≤ naiveLimit ∧
    ∃ h o, Solve_Neat_Hamming HammingNumber.ltDouble (new 1500)
        = some { new 1500 with _resultHamming := h } ∧
      Solve_Naive (new 1500) = some o ∧ o.refused = false ∧
      h.value = o.obj._resultInt :=
  ⟨by decide, neat_value_eq_naive 1500 (by decide)⟩

theorem solve_naive_eq (N : Nat) (hN : N ≤ 10000) (s : NaiveState)
    (hs : naiveLoop wrap N N (naiveInit 1) = some s) :
    Solve_Naive (new N) = some ⟨{ new N with _resultInt := s.resultInt }, false⟩ := by
  unfold Solve_Naive Solve_Naive_with
  rw [if_neg (by simp [new, naiveLimit]; omega)]
  show (naiveLoop wrap N N (naiveInit 1)).map _ = _
  rw [hs]; rfl

/-- C4, counterexample: with target 1 the loop of `Solve_Naive` ends with `cntr = 1`, one
element removed, and `_resultInt = 1`, where the claim has two removals and the value 2. -/
theorem naive_target_one_removes_once :
    (naiveLoop wrap 1 1 (naiveInit 1)).map (fun s => (s.cntr, s.resultInt)) = some (1, 1) ∧
      (Solve_Naive (new 1)).map (fun o => o.obj._resultInt) = some 1 := by
  decide

/-- C4, amended: for every target `N ≤ naiveLimit`, `Solve_Naive` removes the minimum of the
priority queue exactly `N` times (`cntr = N` on exit); for `N ≥ 1` it returns the last value
removed, which is the least element of the queue after `N - 1` iterations and is the Hamming
number of index `N - 1` counted from 0; for `N = 0` it removes nothing and `_resultInt` keeps the
constructor's value 1. -/
theorem naive_removes_target_times (N : Nat) (hN : N ≤ naiveLimit) :
    ∃ s, naiveLoop wrap N N (naiveInit 1) = some s ∧ s.cntr = N ∧
      Solve_Naive (new N) = some ⟨{ new N with _resultInt := s.resultInt }, false⟩ ∧
      (N = 0 → s.resultInt = 1) ∧
      (0 < N → s.resultInt = Nat.nth IsHamming (N - 1) ∧
        ∃ s0, naiveLoop wrap (N - 1) (N - 1) (naiveInit 1) = some s0 ∧
          pqTop s0.pq = some s.resultInt) := by
  unfold naiveLimit at hN
  obtain ⟨s, hs, -, hc, h0, hpos⟩ := naiveLoop_result N hN 1
  refine ⟨s, hs, hc, solve_naive_eq N hN s hs, h0, ?_⟩
  intro hp
  refine ⟨hpos hp, ?_⟩
  obtain ⟨s0, hs0, hI0, hc0, -, -⟩ := naiveLoop_result (N - 1) (by omega) 1
  refine ⟨s0, hs0, ?_⟩
  rw [hpos hp, ← hc0]
  exact pqTop_eq ((hI0.pq _).2 ⟨hI0.nth_mem_tracer, le_refl _⟩) (fun x hx => ((hI0.pq x).1 hx).2)

/-- C4, amended, at target 1500. -/
theorem naive_removes_target_times_witness :
    1500 ≤ naiveLimit ∧
    ∃ s, naiveLoop wrap 1500 1500 (naiveInit 1) = some s ∧ s.cntr = 1500 ∧
      Solve_Naive (new 1500) = some ⟨{ new 1500 with _resultInt := s.resultInt }, false⟩ ∧
      (1500 = 0 → s.resultInt = 1) ∧
      (0 < 1500 → s.resultInt = Nat.nth IsHamming (1500 - 1) ∧
        ∃ s0, naiveLoop wrap (1500 - 1) (1500 - 1) (naiveInit 1) = some s0 ∧
          pqTop s0.pq = some s.resultInt) :=
  ⟨by decide, naive_removes_target_times 1500 (by decide)⟩

/-- C7: `Solve_Naive` always returns; it refuses (writes the `ERR:` line and returns at once)
exactly when its target exceeds `naiveLimit = 10000`, and a refusing call leaves the object,
`_resultInt` and `_resultHamming` included, as it was. -/
theorem naive_refuses_iff_above_limit (c : HammingCalculator) :
    naiveLimit = 10000 ∧
    ∃ o, Solve_Naive c = some o ∧ (o.refused = true ↔ naiveLimit < c._targetNumber) ∧
      (o.refused = false ∨ o.obj = c) := by
  refine ⟨rfl, ?_⟩
  by_cases hc : naiveLimit < c._targetNumber
  · refine ⟨⟨c, true⟩, ?_, ⟨fun _ => hc, fun _ => rfl⟩, Or.inr rfl⟩
    unfold Solve_Naive Solve_Naive_with
    rw [if_pos hc]
  · have hle : c._targetNumber ≤ 10000 := by
      unfold naiveLimit at hc; omega
    obtain ⟨s, hs, -⟩ := naiveLoop_result c._targetNumber hle c._resultInt
    refine ⟨⟨{ c with _resultInt := s.resultInt }, false⟩, ?_, ⟨fun h => by simp at h,
      fun h => absurd h hc⟩, Or.inl rfl⟩
    unfold Solve_Naive Solve_Naive_with
    rw [if_neg hc, hs]; rfl

/-- C8: for every target `N ≤ naiveLimit` the run of `Solve_Naive` in `_intType` arithmetic
is, state for state, the run over the unbounded integers: both end in the same state, whose
`_tracer` (every candidate ever computed, pushed or not) holds only values below `2 ^ 64`;
the element removed in iteration `k < N` is the Hamming number of index `k`, whose product
with 5 is below `2 ^ 64`; and the returned integer is the one computed without reduction. -/
theorem naive_products_do_not_wrap (N : Nat) (hN : N ≤ naiveLimit) :
    ∃ s, naiveLoop wrap N N (naiveInit 1) = some s ∧ naiveLoop id N N (naiveInit 1) = some s ∧
      (∀ x ∈ s.tracer, x < W) ∧
      (∀ k, k < N → ∃ sk, naiveLoop wrap k k (naiveInit 1) = some sk ∧
        pqTop sk.pq = some (Nat.nth IsHamming k) ∧ 5 * Nat.nth IsHamming k < W) ∧
      Solve_Naive (new N) = Solve_Naive_with id (new N) := by
  unfold naiveLimit at hN
  obtain ⟨s, hs, hI, hc, -, -⟩ := naiveLoop_result N hN 1
  have heq := naiveLoop_wrap_eq N hN N (naiveInit 1) (naiveInv_init 1) (Nat.zero_le _)
  refine ⟨s, hs, by rw [← heq]; exact hs, ?_, ?_, ?_⟩
  · intro x hx
    rcases (hI.tr x).1 hx with rfl | ⟨j, hj, h⟩
    · decide
    · have := five_mul_nth_lt (k := j) (by omega)
      rcases h with rfl | rfl | rfl <;> omega
  · intro k hk
    obtain ⟨sk, hsk, hIk, hck, -, -⟩ := naiveLoop_result k (by omega) 1
    refine ⟨sk, hsk, ?_, five_mul_nth_lt (by omega)⟩
    rw [← hck]
    exact pqTop_eq ((hIk.pq _).2 ⟨hIk.nth_mem_tracer, le_refl _⟩)
      (fun x hx => ((hIk.pq x).1 hx).2)
  · unfold Solve_Naive Solve_Naive_with
    show (if N > naiveLimit then _ else (naiveLoop wrap N N (naiveInit 1)).map _) =
      (if N > naiveLimit then _ else (naiveLoop id N N (naiveInit 1)).map _)
    rw [heq]

/-- C8 at target 1500. -/
theorem naive_products_do_not_wrap_witness :
    1500 ≤ naiveLimit ∧
    ∃ s, naiveLoop wrap 1500 1500 (naiveInit 1) = some s ∧
      naiveLoop id 1500 1500 (naiveInit 1) = some s ∧
      (∀ x ∈ s.tracer, x < W) ∧
      (∀ k, k < 1500 → ∃ sk, naiveLoop wrap k k (naiveInit 1) = some sk ∧
        pqTop sk.pq = some (Nat.nth IsHamming k) ∧ 5 * Nat.nth IsHamming k < W) ∧
      Solve_Naive (new 1500) = Solve_Naive_with id (new 1500) :=
  ⟨by decide, naive_products_do_not_wrap 1500 (by decide)⟩

/-- C9, counterexample: for the factor 7 the source's `operator*` returns a `HammingNumber`, its
argument (0,0,0) unchanged, where the contract of the specification fails with
`InvalidMultiplier`. -/
theorem mul_seven_returns_argument :
    HammingNumber.mul ⟨0, 0, 0⟩ 7 = ⟨0, 0, 0⟩ ∧
      multiplySpec ⟨0, 0, 0⟩ 7 = Except.error MulError.InvalidMultiplier := by
  constructor <;> rfl

/-- C9, amended: for every `HammingNumber` `u` and every integer `k` other than 2, 3 and 5,
`u * k` returns `u` unchanged; it does not fail. -/
theorem mul_other_factor_is_identity (u : HammingNumber) (k : Int)
    (h2 : k ≠ 2) (h3 : k ≠ 3) (h5 : k ≠ 5) : u.mul k = u := by
  unfold HammingNumber.mul
  simp [h2, h3, h5]

/-- C9, amended, at the triple (1,2,3) and the factor 7. -/
theorem mul_other_factor_is_identity_witness :
    (7 : Int) ≠ 2 ∧ (7 : Int) ≠ 3 ∧ (7 : Int) ≠ 5 ∧
      HammingNumber.mul ⟨1, 2, 3⟩ 7 = ⟨1, 2, 3⟩ :=
  ⟨by decide, by decide, by decide,
    mul_other_factor_is_identity ⟨1, 2, 3⟩ 7 (by decide) (by decide) (by decide)⟩

/-- C10, counterexample: the exponent `p = 2 ^ 64 - 1` is an `_intType` value, and multiplying
by 2 wraps it to 0 instead of incrementing it: the product of (2^64 - 1, 0, 0) and 2 is
(0,0,0), of magnitude 1. -/
theorem mul_two_wraps_at_max :
    HammingNumber.InRange ⟨18446744073709551615, 0, 0⟩ ∧
      HammingNumber.mul ⟨18446744073709551615, 0, 0⟩ 2 = ⟨0, 0, 0⟩ ∧
      (HammingNumber.mul ⟨18446744073709551615, 0, 0⟩ 2).p ≠ 18446744073709551615 + 1 ∧
      (HammingNumber.mul ⟨18446744073709551615, 0, 0⟩ 2).value = 1 := by
  refine ⟨by decide, by decide, by decide, by decide⟩

/-- C10, amended: for every `HammingNumber` `u` and `k` in {2, 3, 5} such that the exponent
matching `k` is below `2 ^ 64 - 1`, `u * k` is `u` with exactly that exponent incremented by
one and the other two unchanged, and its magnitude is `k` times that of `u`; the
default-constructed `HammingNumber` has `p = q = r = 0` and magnitude 1. -/
theorem mul_increments_matching_exponent (u : HammingNumber) (k : Int)
    (hk : k = 2 ∨ k = 3 ∨ k = 5)
    (hfit : (if k = 2 then u.p else if k = 3 then u.q else u.r) + 1 < W) :
    u.mul k = ⟨u.p + (if k = 2 then 1 else 0), u.q + (if k = 3 then 1 else 0),
        u.r + (if k = 5 then 1 else 0)⟩ ∧
      ((u.mul k).value : Int) = k * (u.value : Int) ∧
      HammingNumber.one = ⟨0, 0, 0⟩ ∧ HammingNumber.one.value = 1 := by
  refine ⟨?_, ?_, rfl, rfl⟩
  · rcases hk with rfl | rfl | rfl
    · simp only [if_pos] at hfit
      rw [HammingNumber.mul_two, wrap_of_lt hfit]; simp
    · simp at hfit
      rw [HammingNumber.mul_three, wrap_of_lt hfit]; simp
    · simp at hfit
      rw [HammingNumber.mul_five, wrap_of_lt hfit]; simp
  · rcases hk with rfl | rfl | rfl
    · simp only [if_pos] at hfit
      rw [value_mul_two u hfit]; push_cast; ring
    · simp at hfit
      rw [value_mul_three u hfit]; push_cast; ring
    · simp at hfit
      rw [value_mul_five u hfit]; push_cast; ring

/-- C10, amended, at the triple (1,2,3) and the factor 3. -/
theorem mul_increments_matching_exponent_witness :
    ((3 : Int) = 2 ∨ (3 : Int) = 3 ∨ (3 : Int) = 5) ∧
    (if (3 : Int) = 2 then 1 else if (3 : Int) = 3 then 2 else 3) + 1 < W ∧
    (HammingNumber.mul ⟨1, 2, 3⟩ 3 = ⟨1 + (if (3 : Int) = 2 then 1 else 0),
        2 + (if (3 : Int) = 3 then 1 else 0), 3 + (if (3 : Int) = 5 then 1 else 0)⟩ ∧
      ((HammingNumber.mul ⟨1, 2, 3⟩ 3).value : Int) =
        3 * ((⟨1, 2, 3⟩ : HammingNumber).value : Int) ∧
      HammingNumber.one = ⟨0, 0, 0⟩ ∧ HammingNumber.one.value = 1) :=
  ⟨by decide, by decide, mul_increments_matching_exponent ⟨1, 2, 3⟩ 3 (by decide) (by decide)⟩


theorem IsHamming.exists_exponents {m : Nat} (h : IsHamming m) :
    ∃ a b c, m = 2 ^ a * 3 ^ b * 5 ^ c := by
  obtain ⟨u, hu⟩ := (isHamming_iff m).1 h
  exact ⟨u.p, u.q, u.r, hu.symm⟩

theorem NeatExact.read {s : NeatState} {n P Q R : Nat} (hE : NeatExact s n P Q R)
    (i : Nat) (hi : i ≤ n) : ∃ u, s.res[i + 1]? = some u ∧ u.value = Nat.nth IsHamming i := by
  have hlen := hE.len
  have hb : i + 1 < s.res.length := by omega
  exact ⟨s.res[i + 1], List.getElem?_eq_getElem hb, hE.vals i _ (List.getElem?_eq_getElem hb)⟩

/-- C12: `operator==` on `HammingNumber` is true exactly when the three exponents agree, and
two exponent triples agree exactly when their magnitudes `2^p * 3^q * 5^r`, taken over the
unbounded integers, are equal. -/
theorem eq_iff_exponents_iff_magnitude (l r : HammingNumber) :
    (l.eq r = true ↔ l.p = r.p ∧ l.q = r.q ∧ l.r = r.r) ∧
    ((l.p, l.q, l.r) = (r.p, r.q, r.r) ↔
      2 ^ l.p * 3 ^ l.q * 5 ^ l.r = 2 ^ r.p * 3 ^ r.q * 5 ^ r.r) ∧
    (l.eq r = true ↔ l.value = r.value) := by
  refine ⟨?_, ?_, eq_iff_value l r⟩
  · cases l; cases r; simp [HammingNumber.eq, and_assoc]
  · constructor
    · intro h
      simp only [Prod.mk.injEq] at h
      obtain ⟨h1, h2, h3⟩ := h
      rw [h1, h2, h3]
    · intro h
      have hv : l.value = r.value := h
      have := value_injective hv
      rw [this]

/-- C13: for every target `N ≤ naiveLimit`, the integer returned by `Solve_Naive` is a
positive integer with no prime factor other than 2, 3 and 5, of the form `2^a * 3^b * 5^c`,
and so is every integer held in the priority queue at the head of the loop after any
number `k ≤ N` of iterations. -/
theorem naive_values_are_five_smooth (N : Nat) (hN : N ≤ naiveLimit) :
    ∃ s, naiveLoop wrap N N (naiveInit 1) = some s ∧ naiveIter wrap N 1 N = some s ∧
      Solve_Naive (new N) = some ⟨{ new N with _resultInt := s.resultInt }, false⟩ ∧
      IsHamming s.resultInt ∧ (∃ a b c, s.resultInt = 2 ^ a * 3 ^ b * 5 ^ c) ∧
      ∀ k, k ≤ N → ∃ sk, naiveIter wrap N 1 k = some sk ∧
        ∀ x ∈ sk.pq, IsHamming x ∧ ∃ a b c, x = 2 ^ a * 3 ^ b * 5 ^ c := by
  unfold naiveLimit at hN
  obtain ⟨s, hs, -, -, h0, hpos⟩ := naiveLoop_result N hN 1
  have hres : IsHamming s.resultInt := by
    rcases Nat.eq_zero_or_pos N with hz | hp
    · rw [h0 hz]; exact isHamming_one
    · rw [hpos hp]; exact isHamming_nth _
  refine ⟨s, hs, by rw [← naiveLoop_final N hN 1]; exact hs, solve_naive_eq N hN s hs, hres,
    hres.exists_exponents, ?_⟩
  intro k hk
  obtain ⟨sk, hsk, hI, -, -⟩ := naiveIter_inv N hN 1 k hk
  refine ⟨sk, hsk, fun x hx => ?_⟩
  have hx' := hI.isHamming_of_mem ((hI.pq x).1 hx).1
  exact ⟨hx', hx'.exists_exponents⟩

/-- C13 at target 1500. -/
theorem naive_values_are_five_smooth_witness :
    1500 ≤ naiveLimit ∧
    ∃ s, naiveLoop wrap 1500 1500 (naiveInit 1) = some s ∧
      naiveIter wrap 1500 1 1500 = some s ∧
      Solve_Naive (new 1500) = some ⟨{ new 1500 with _resultInt := s.resultInt }, false⟩ ∧
      IsHamming s.resultInt ∧ (∃ a b c, s.resultInt = 2 ^ a * 3 ^ b * 5 ^ c) ∧
      ∀ k, k ≤ 1500 → ∃ sk, naiveIter wrap 1500 1 k = some sk ∧
        ∀ x ∈ sk.pq, IsHamming x ∧ ∃ a b c, x = 2 ^ a * 3 ^ b * 5 ^ c :=
  ⟨by decide, naive_values_are_five_smooth 1500 (by decide)⟩

/-- C14: in `Solve_Neater_Hamming`, for every comparison and every target `N` with `N + 1`
representable, after any number `k ≤ N` of iterations the deque is the logical sequence
without its first `offset` elements, `offset` is at most each pointer and at most `N` (so
no translated index underflows), and the element at the logical position `min(p,q,r)` is
retained. While `k < N` the next iteration succeeds, each translated read
`res[++ptr - offset]` being an in-bounds index of the deque after the append. When `k = N`
the loop is left in this state, `N - offset` is an in-bounds index, and the element read
there is the logical `N`-th element, which is the result. -/
theorem neater_reads_in_bounds (less : HammingNumber → HammingNumber → Bool) (N k : Nat)
    (hk : k ≤ N) (hT : N + 1 < W) :
    ∃ d w, neatIter less N k = some d ∧ neaterIter less N k = some w ∧
      w.res = d.res.drop w.offset ∧ w.p = d.p ∧ w.q = d.q ∧ w.r = d.r ∧
      w.offset ≤ w.p ∧ w.offset ≤ w.q ∧ w.offset ≤ w.r ∧ w.offset ≤ N ∧
      min w.p (min w.q w.r) - w.offset < w.res.length ∧
      (k < N → ∃ w', neaterStep less w = some w' ∧ neaterIter less N (k + 1) = some w' ∧
        wsub (wrap (w.p + 1)) w.offset = w.p + 1 - w.offset ∧
        wsub (wrap (w.q + 1)) w.offset = w.q + 1 - w.offset ∧
        wsub (wrap (w.r + 1)) w.offset = w.r + 1 - w.offset ∧
        w.p + 1 - w.offset < w.res.length + 1 ∧
        w.q + 1 - w.offset < w.res.length + 1 ∧
        w.r + 1 - w.offset < w.res.length + 1) ∧
      (k = N → neaterLoop less N N neaterInit = some w ∧
        wsub N w.offset = N - w.offset ∧ N - w.offset < w.res.length ∧
        ∃ h, w.res[wsub N w.offset]? = some h ∧ d.res[N]? = some h ∧
          neaterResult less N = some h) := by
  obtain ⟨d, w, hd, hw, hS, hB, hlen, hm⟩ := neaterIter_sim less N hT k hk
  have hp := hB.hp
  have hq := hB.hq
  have hr := hB.hr
  have hop := hS.op
  have hoq := hS.oq
  have hor := hS.or
  have ep := hS.p
  have eq := hS.q
  have er := hS.r
  have hwlen : w.res.length = d.res.length - w.offset := by rw [hS.res, List.length_drop]
  refine ⟨d, w, hd, hw, hS.res, ep, eq, er, by omega, by omega, by omega, by omega, by omega,
    ?_, ?_⟩
  · intro hlt
    obtain ⟨u2, u3, u5, -, -, -, he⟩ := neatStep_spec less d hB (by omega)
    obtain ⟨w', hw', -⟩ := neaterStep_sim less d _ w hS hB (by omega) he
    have hnw := neaterIter_succ less N k hT hlt d w hw hS hB hlen
    refine ⟨w', hw', by rw [hnw]; exact hw', ?_, ?_, ?_, by omega, by omega, by omega⟩
    · rw [wrap_of_lt (by omega), wsub_of_le (by omega) (by omega)]
    · rw [wrap_of_lt (by omega), wsub_of_le (by omega) (by omega)]
    · rw [wrap_of_lt (by omega), wsub_of_le (by omega) (by omega)]
  · intro hkN
    subst hkN
    have hloop : neaterLoop less k k neaterInit = some w := by
      rw [neaterLoop_final less k hT]; exact hw
    have hb : k < d.res.length := by omega
    have hread : w.res[wsub k w.offset]? = some d.res[k] := by
      rw [hS.res, read_window _ _ _ (by omega) (by omega)]
      exact List.getElem?_eq_getElem hb
    refine ⟨hloop, wsub_of_le (by omega) (by omega), by omega, d.res[k], hread,
      List.getElem?_eq_getElem hb, ?_⟩
    unfold neaterResult
    rw [hloop, Option.some_bind, hread]

/-- C14 under the exact comparison, at target 7 after 4 iterations. -/
theorem neater_reads_in_bounds_witness :
    4 ≤ 7 ∧ 7 + 1 < W ∧
    ∃ d w, neatIter HammingNumber.lt 7 4 = some d ∧ neaterIter HammingNumber.lt 7 4 = some w ∧
      w.res = d.res.drop w.offset ∧ w.p = d.p ∧ w.q = d.q ∧ w.r = d.r ∧
      w.offset ≤ w.p ∧ w.offset ≤ w.q ∧ w.offset ≤ w.r ∧ w.offset ≤ 7 ∧
      min w.p (min w.q w.r) - w.offset < w.res.length ∧
      (4 < 7 → ∃ w', neaterStep HammingNumber.lt w = some w' ∧
        neaterIter HammingNumber.lt 7 (4 + 1) = some w' ∧
        wsub (wrap (w.p + 1)) w.offset = w.p + 1 - w.offset ∧
        wsub (wrap (w.q + 1)) w.offset = w.q + 1 - w.offset ∧
        wsub (wrap (w.r + 1)) w.offset = w.r + 1 - w.offset ∧
        w.p + 1 - w.offset < w.res.length + 1 ∧
        w.q + 1 - w.offset < w.res.length + 1 ∧
        w.r + 1 - w.offset < w.res.length + 1) ∧
      (4 = 7 → neaterLoop HammingNumber.lt 7 7 neaterInit = some w ∧
        wsub 7 w.offset = 7 - w.offset ∧ 7 - w.offset < w.res.length ∧
        ∃ h, w.res[wsub 7 w.offset]? = some h ∧ d.res[7]? = some h ∧
          neaterResult HammingNumber.lt 7 = some h) :=
  ⟨by decide, by decide, neater_reads_in_bounds HammingNumber.lt 7 4 (by decide) (by decide)⟩

/-- C15: in `Solve_Neat_Hamming`, for every comparison and every target `N` with `N + 1`
representable, in each of the `N` iterations of the loop no pointer decreases, each pointer
is below `res.size()` afterwards, and each index `++p`, `++q`, `++r` is not reduced modulo
`2 ^ 64` and is below the size `res` has when it is read. -/
theorem neat_pointers_lag_write_position (less : HammingNumber → HammingNumber → Bool)
    (N k : Nat) (hk : k < N) (hT : N + 1 < W) :
    neatLoop less N N neatInit = neatIter less N N ∧
    ∃ s s', neatIter less N k = some s ∧ neatIter less N (k + 1) = some s' ∧
      neatStep less s = some s' ∧ s.res.length = k + 1 ∧ s'.res.length = k + 2 ∧
      s.p ≤ s'.p ∧ s.q ≤ s'.q ∧ s.r ≤ s'.r ∧
      s.p < s.res.length ∧ s.q < s.res.length ∧ s.r < s.res.length ∧
      s'.p < s'.res.length ∧ s'.q < s'.res.length ∧ s'.r < s'.res.length ∧
      wrap (s.p + 1) = s.p + 1 ∧ wrap (s.q + 1) = s.q + 1 ∧ wrap (s.r + 1) = s.r + 1 ∧
      (∃ u, s'.res[s.p + 1]? = some u) ∧ (∃ u, s'.res[s.q + 1]? = some u) ∧
      (∃ u, s'.res[s.r + 1]? = some u) := by
  refine ⟨neatLoop_final less N hT, ?_⟩
  obtain ⟨s, hs, hB, hlen⟩ := neatIter_bounds less N hT k (by omega)
  obtain ⟨u2, u3, u5, h2, h3, h5, he⟩ := neatStep_spec less s hB (by omega)
  obtain ⟨hB', hlen'⟩ := neatStep_bounds less s _ hB (by omega) he
  have hnext := neatIter_succ less N k hT hk s hs hlen
  have hp := hB.hp
  have hq := hB.hq
  have hr := hB.hr
  refine ⟨s, _, hs, by rw [hnext]; exact he, he, hlen, by omega, ?_, ?_, ?_, hp, hq, hr,
    hB'.hp, hB'.hq, hB'.hr, wrap_of_lt (by omega), wrap_of_lt (by omega),
    wrap_of_lt (by omega), ⟨u2, h2⟩, ⟨u3, h3⟩, ⟨u5, h5⟩⟩
  · dsimp only; split_ifs <;> omega
  · dsimp only; split_ifs <;> omega
  · dsimp only; split_ifs <;> omega

/-- C15 under the exact comparison, at target 7 in the iteration after the first 4. -/
theorem neat_pointers_lag_write_position_witness :
    4 < 7 ∧ 7 + 1 < W ∧
    (neatLoop HammingNumber.lt 7 7 neatInit = neatIter HammingNumber.lt 7 7 ∧
    ∃ s s', neatIter HammingNumber.lt 7 4 = some s ∧
      neatIter HammingNumber.lt 7 (4 + 1) = some s' ∧
      neatStep HammingNumber.lt s = some s' ∧ s.res.length = 4 + 1 ∧ s'.res.length = 4 + 2 ∧
      s.p ≤ s'.p ∧ s.q ≤ s'.q ∧ s.r ≤ s'.r ∧
      s.p < s.res.length ∧ s.q < s.res.length ∧ s.r < s.res.length ∧
      s'.p < s'.res.length ∧ s'.q < s'.res.length ∧ s'.r < s'.res.length ∧
      wrap (s.p + 1) = s.p + 1 ∧ wrap (s.q + 1) = s.q + 1 ∧ wrap (s.r + 1) = s.r + 1 ∧
      (∃ u, s'.res[s.p + 1]? = some u) ∧ (∃ u, s'.res[s.q + 1]? = some u) ∧
      (∃ u, s'.res[s.r + 1]? = some u)) :=
  ⟨by decide, by decide,
    neat_pointers_lag_write_position HammingNumber.lt 7 4 (by decide) (by decide)⟩

/-- C16: in `Solve_Naive`, for every target `N ≤ naiveLimit`, at the head of the loop after any
number `k ≤ N` of iterations `_tracer`, which receives a value exactly when that value is pushed
onto the priority queue, holds no value twice, the queue holds no value twice and
only values of `_tracer`; and the values removed in two iterations `i < j` are strictly
increasing. -/
theorem naive_pushes_once_and_removes_increasing (N : Nat) (hN : N ≤ naiveLimit) :
    naiveLoop wrap N N (naiveInit 1) = naiveIter wrap N 1 N ∧
    (∀ k, k ≤ N → ∃ sk, naiveIter wrap N 1 k = some sk ∧ sk.tracer.Nodup ∧ sk.pq.Nodup ∧
      ∀ x ∈ sk.pq, x ∈ sk.tracer) ∧
    (∀ i j, i < j → j < N → ∃ si sj mi mj, naiveIter wrap N 1 i = some si ∧
      naiveIter wrap N 1 j = some sj ∧ pqTop si.pq = some mi ∧ pqTop sj.pq = some mj ∧
      mi < mj) := by
  unfold naiveLimit at hN
  refine ⟨naiveLoop_final N hN 1, ?_, ?_⟩
  · intro k hk
    obtain ⟨sk, hsk, hI, -, hn⟩ := naiveIter_inv N hN 1 k hk
    exact ⟨sk, hsk, hn, hI.nodup, fun x hx => ((hI.pq x).1 hx).1⟩
  · intro i j hij hj
    obtain ⟨si, hsi, hIi, hci, -⟩ := naiveIter_inv N hN 1 i (by omega)
    obtain ⟨sj, hsj, hIj, hcj, -⟩ := naiveIter_inv N hN 1 j (by omega)
    have ti : pqTop si.pq = some (Nat.nth IsHamming i) := by
      rw [← hci]
      exact pqTop_eq ((hIi.pq _).2 ⟨hIi.nth_mem_tracer, le_refl _⟩)
        (fun x hx => ((hIi.pq x).1 hx).2)
    have tj : pqTop sj.pq = some (Nat.nth IsHamming j) := by
      rw [← hcj]
      exact pqTop_eq ((hIj.pq _).2 ⟨hIj.nth_mem_tracer, le_refl _⟩)
        (fun x hx => ((hIj.pq x).1 hx).2)
    exact ⟨si, sj, _, _, hsi, hsj, ti, tj, nth_lt_iff.2 hij⟩

/-- C16 at target 1500. -/
theorem naive_pushes_once_and_removes_increasing_witness :
    1500 ≤ naiveLimit ∧
    (naiveLoop wrap 1500 1500 (naiveInit 1) = naiveIter wrap 1500 1 1500 ∧
    (∀ k, k ≤ 1500 → ∃ sk, naiveIter wrap 1500 1 k = some sk ∧ sk.tracer.Nodup ∧
      sk.pq.Nodup ∧ ∀ x ∈ sk.pq, x ∈ sk.tracer) ∧
    (∀ i j, i < j → j < 1500 → ∃ si sj mi mj, naiveIter wrap 1500 1 i = some si ∧
      naiveIter wrap 1500 1 j = some sj ∧ pqTop si.pq = some mi ∧
      pqTop sj.pq = some mj ∧ mi < mj)) :=
  ⟨by decide, naive_pushes_once_and_removes_increasing 1500 (by decide)⟩

/-- C17: under the exact comparison, for every `N ≥ 1` with `N + 1` representable,
`Solve_Neat_Hamming` with target `N` stores the Hamming number of index `N - 1` of the increasing
sequence (the `N`-th counting 1 as the first); the stored vector `res` has `N + 1` elements,
(0,0,0) followed by the Hamming numbers of index 0 to `N - 1` in order, and every Hamming
number up to the result is among them; with target 0 the result is (0,0,0). -/
theorem neat_stores_one_then_all_hamming (N : Nat) (h1 : 1 ≤ N) (hT : N + 1 < W) :
    ∃ s h, neatLoop HammingNumber.lt N N neatInit = some s ∧
      Solve_Neat_Hamming HammingNumber.lt (new N) = some { new N with _resultHamming := h } ∧
      s.res[N]? = some h ∧ h.value = Nat.nth IsHamming (N - 1) ∧
      s.res.length = N + 1 ∧ s.res[0]? = some ⟨0, 0, 0⟩ ∧
      (∀ i, i < N → ∃ u, s.res[i + 1]? = some u ∧ u.value = Nat.nth IsHamming i) ∧
      (∀ m, IsHamming m → m ≤ h.value →
        ∃ i u, i < N ∧ s.res[i + 1]? = some u ∧ u.value = m) ∧
      Solve_Neat_Hamming HammingNumber.lt (new 0)
        = some { new 0 with _resultHamming := ⟨0, 0, 0⟩ } := by
  obtain ⟨M, rfl⟩ : ∃ M, N = M + 1 := ⟨N - 1, by omega⟩
  obtain ⟨s, n, P, Q, R, hs, hE, -, hlen⟩ := neat_final (M + 1) h1 hT
  have hn : n = M := by have := hE.len; omega
  subst hn
  obtain ⟨h, hr, hv⟩ := hE.read n (le_refl _)
  have hres : neatResult HammingNumber.lt (n + 1) = some h := by
    unfold neatResult
    rw [hs, Option.some_bind, hr]
  refine ⟨s, h, hs, solve_neat_eq _ (new (n + 1)) h hres, hr, ?_, hlen, hE.head, ?_, ?_,
    by decide⟩
  · rw [hv, Nat.add_sub_cancel]
  · intro i hi
    exact hE.read i (by omega)
  · intro m hm hle
    obtain ⟨i, rfl⟩ := hm.exists_index
    rw [hv] at hle
    have hi : i ≤ n := nth_le_iff.1 hle
    obtain ⟨u, hu, huv⟩ := hE.read i hi
    exact ⟨i, u, by omega, hu, huv⟩

/-- C17 at target 7. -/
theorem neat_stores_one_then_all_hamming_witness :
    1 ≤ 7 ∧ 7 + 1 < W ∧
    ∃ s h, neatLoop HammingNumber.lt 7 7 neatInit = some s ∧
      Solve_Neat_Hamming HammingNumber.lt (new 7) = some { new 7 with _resultHamming := h } ∧
      s.res[7]? = some h ∧ h.value = Nat.nth IsHamming (7 - 1) ∧
      s.res.length = 7 + 1 ∧ s.res[0]? = some ⟨0, 0, 0⟩ ∧
      (∀ i, i < 7 → ∃ u, s.res[i + 1]? = some u ∧ u.value = Nat.nth IsHamming i) ∧
      (∀ m, IsHamming m → m ≤ h.value →
        ∃ i u, i < 7 ∧ s.res[i + 1]? = some u ∧ u.value = m) ∧
      Solve_Neat_Hamming HammingNumber.lt (new 0)
        = some { new 0 with _resultHamming := ⟨0, 0, 0⟩ } :=
  ⟨by decide, by decide, neat_stores_one_then_all_hamming 7 (by decide) (by decide)⟩

/-- C18: in `Solve_Neater_Hamming`, for every comparison and every target `N` with `N + 1`
representable, after any number `k ≤ N` of iterations `offset` equals `min(p, q, r)`, the
deque is the logical sequence of `k + 1` elements without its first `min(p, q, r)` elements,
and its length is `k + 1 - min(p, q, r)`; in one iteration `min(p, q, r)` and `offset` grow
by at most one. -/
theorem neater_offset_is_least_pointer (less : HammingNumber → HammingNumber → Bool)
    (N k : Nat) (hk : k ≤ N) (hT : N + 1 < W) :
    ∃ d w, neatIter less N k = some d ∧ neaterIter less N k = some w ∧
      w.offset = min w.p (min w.q w.r) ∧ d.res.length = k + 1 ∧
      w.res = d.res.drop (min w.p (min w.q w.r)) ∧
      w.res.length = k + 1 - min w.p (min w.q w.r) ∧
      (k < N → ∃ w', neaterIter less N (k + 1) = some w' ∧
        w'.offset = min w'.p (min w'.q w'.r) ∧
        min w.p (min w.q w.r) ≤ min w'.p (min w'.q w'.r) ∧
        min w'.p (min w'.q w'.r) ≤ min w.p (min w.q w.r) + 1) := by
  obtain ⟨d, w, hd, hw, hS, hB, hlen, hm⟩ := neaterIter_sim less N hT k hk
  have hm' : w.offset = min w.p (min w.q w.r) := by rw [hS.p, hS.q, hS.r]; exact hm
  refine ⟨d, w, hd, hw, hm', hlen, by rw [← hm']; exact hS.res, ?_, ?_⟩
  · rw [← hm', hS.res, List.length_drop, hlen]
  · intro hlt
    obtain ⟨u2, u3, u5, -, -, -, he⟩ := neatStep_spec less d hB (by omega)
    obtain ⟨w', hw', hS'⟩ := neaterStep_sim less d _ w hS hB (by omega) he
    obtain ⟨hmn, -, -, -, -, -, -, ho1, ho2⟩ :=
      neaterStep_min less d _ w w' hS hB (by omega) hm he hw'
    have hnw := neaterIter_succ less N k hT hlt d w hw hS hB hlen
    have hmn' : w'.offset = min w'.p (min w'.q w'.r) := by
      rw [hS'.p, hS'.q, hS'.r]; exact hmn
    refine ⟨w', by rw [hnw]; exact hw', hmn', ?_, ?_⟩
    · rw [← hm', ← hmn']; exact ho1
    · rw [← hm', ← hmn']; exact ho2

/-- C18 under the exact comparison, at target 7 after 4 iterations. -/
theorem neater_offset_is_least_pointer_witness :
    4 ≤ 7 ∧ 7 + 1 < W ∧
    ∃ d w, neatIter HammingNumber.lt 7 4 = some d ∧ neaterIter HammingNumber.lt 7 4 = some w ∧
      w.offset = min w.p (min w.q w.r) ∧ d.res.length = 4 + 1 ∧
      w.res = d.res.drop (min w.p (min w.q w.r)) ∧
      w.res.length = 4 + 1 - min w.p (min w.q w.r) ∧
      (4 < 7 → ∃ w', neaterIter HammingNumber.lt 7 (4 + 1) = some w' ∧
        w'.offset = min w'.p (min w'.q w'.r) ∧
        min w.p (min w.q w.r) ≤ min w'.p (min w'.q w'.r) ∧
        min w'.p (min w'.q w'.r) ≤ min w.p (min w.q w.r) + 1) :=
  ⟨by decide, by decide,
    neater_offset_is_least_pointer HammingNumber.lt 7 4 (by decide) (by decide)⟩

/-- C11, counterexample: the double-precision `operator<` is not the order by magnitude.
The triples (0,0,171904) and (182627,136610,0) differ and `5^171904 < 2^182627 * 3^136610`,
yet their computed logarithms are equal, so neither is below the other; and
`2^87022 * 3^231458 < 5^195473`, yet `operator<` puts (0,0,195473) below
(87022,231458,0). -/
theorem ltDouble_not_magnitude_order :
    ((⟨0, 0, 171904⟩ : HammingNumber).value < (⟨182627, 136610, 0⟩ : HammingNumber).value ∧
      (⟨0, 0, 171904⟩ : HammingNumber).log = (⟨182627, 136610, 0⟩ : HammingNumber).log ∧
      (⟨0, 0, 171904⟩ : HammingNumber).ltDouble ⟨182627, 136610, 0⟩ = false ∧
      (⟨182627, 136610, 0⟩ : HammingNumber).ltDouble ⟨0, 0, 171904⟩ = false ∧
      (⟨0, 0, 171904⟩ : HammingNumber).eq ⟨182627, 136610, 0⟩ = false) ∧
    ((⟨87022, 231458, 0⟩ : HammingNumber).value < (⟨0, 0, 195473⟩ : HammingNumber).value ∧
      (⟨0, 0, 195473⟩ : HammingNumber).ltDouble ⟨87022, 231458, 0⟩ = true) := by
  refine ⟨⟨by decide!, by decide, by decide, by decide, by decide⟩, by decide!, by decide⟩

/-- C11, amended: on triples of magnitude below `2 ^ 64` the double-precision `operator<` is
the strict order by magnitude, and two such triples have equal computed logarithms, or are
unordered by `operator<`, only when they are the same triple. -/
theorem ltDouble_iff_magnitude_below (l r : HammingNumber) (hl : l.value < 2 ^ 64)
    (hr : r.value < 2 ^ 64) :
    (l.ltDouble r = true ↔ l.value < r.value) ∧
    (l.log = r.log → l = r) ∧
    (l.ltDouble r = false → r.ltDouble l = false → l = r) := by
  refine ⟨ltDouble_iff hl hr, log_injOn hl hr, ?_⟩
  intro h1 h2
  apply log_injOn hl hr
  unfold HammingNumber.ltDouble at h1 h2
  rw [decide_eq_false_iff_not] at h1 h2
  omega

/-- C11, amended, at the triples (3,1,0) = 24 and (0,0,2) = 25. -/
theorem ltDouble_iff_magnitude_below_witness :
    (⟨3, 1, 0⟩ : HammingNumber).value < 2 ^ 64 ∧ (⟨0, 0, 2⟩ : HammingNumber).value < 2 ^ 64 ∧
    (((⟨3, 1, 0⟩ : HammingNumber).ltDouble ⟨0, 0, 2⟩ = true ↔
        (⟨3, 1, 0⟩ : HammingNumber).value < (⟨0, 0, 2⟩ : HammingNumber).value) ∧
      ((⟨3, 1, 0⟩ : HammingNumber).log = (⟨0, 0, 2⟩ : HammingNumber).log →
        (⟨3, 1, 0⟩ : HammingNumber) = ⟨0, 0, 2⟩) ∧
      ((⟨3, 1, 0⟩ : HammingNumber).ltDouble ⟨0, 0, 2⟩ = false →
        (⟨0, 0, 2⟩ : HammingNumber).ltDouble ⟨3, 1, 0⟩ = false →
        (⟨3, 1, 0⟩ : HammingNumber) = ⟨0, 0, 2⟩)) :=
  ⟨by decide, by decide, ltDouble_iff_magnitude_below ⟨3, 1, 0⟩ ⟨0, 0, 2⟩ (by decide) (by decide)⟩

/-! ## `Solve_Neat_Hamming` under the double-precision comparison, beyond the agreement range -/

end Hamming
